import Mathlib

/-!
# sourcegraph: shared-secret token sources and the defensive token cache

A shallow embedding of `auth/sharedsecret/sharedsecret.go`, followed by the
frames of `app/repo_frame.go` and the build log store of
`server/internal/store/fs/build_logs.go`.  The definitions come first, then the
theorems.

* Instants (`time.Time`) are integers: nanoseconds counted from Go's zero
  instant, so `Time.IsZero` is `= 0`, `Time.Add d` is `+ d` and `Time.Before`
  is `<`.  Durations (`time.Duration`) are integer nanoseconds.
* A `*oauth2.Token` is an `Option oauth2.Token` (`none` is the nil pointer).
* The pair `(*oauth2.Token, error)` returned by `Token()` is a `TokenResult`.
* An `oauth2.TokenSource` interface value is either a
  `*defensiveReuseTokenSource` (the one dynamic type the constructor
  inspects) or a source of any other dynamic type, whose state is a value
  of a type `σ` and whose `Token()` method is a function
  `fetch : σ → Time → TokenResult × σ`.
* `Token()` reads the clock once; that reading is the argument `now`.
-/

namespace time

/-- Go `time.Time`, as nanoseconds since the zero instant. -/
abbrev Time := Int

/-- Go `time.Duration`, in nanoseconds. -/
abbrev Duration := Int

/-- Go `time.Second`. -/
def Second : Duration := 1000000000

/-- Go `time.Minute`. -/
def Minute : Duration := 60 * Second

end time

namespace oauth2

/-- Go `oauth2.Token` (exported fields). -/
structure Token where
  AccessToken : String
  TokenType : String
  RefreshToken : String
  Expiry : time.Time
deriving DecidableEq, Repr

/-- The pair `(*oauth2.Token, error)` returned by a `Token()` method. -/
structure TokenResult where
  tok : Option Token
  err : Option String
deriving DecidableEq, Repr

/-- Go interface `oauth2.TokenSource`: a `*defensiveReuseTokenSource` with its
fields `new` and `t`, or a source of another dynamic type with state `s`. -/
inductive TokenSource (σ : Type) where
  | other (s : σ) : TokenSource σ
  | defensiveReuseTokenSource (new : TokenSource σ) (t : Option Token) : TokenSource σ
deriving DecidableEq, Repr

end oauth2

namespace sharedsecret

/-- Constant `defensiveExpiry = 60 * time.Minute`. -/
def defensiveExpiry : time.Duration := 60 * time.Minute

/-- Constant `expiry = 3 * 60 * time.Minute`. -/
def expiry : time.Duration := 3 * 60 * time.Minute

/-- Method `(*defensiveReuseTokenSource).valid`, on the field `s.t`, with
`now` the value of `time.Now()`. -/
def valid (t : Option oauth2.Token) (now : time.Time) : Bool :=
  match t with
  | none => false
  | some tk =>
    if tk.AccessToken = "" ∨ tk.Expiry = 0 then false
    else decide (tk.Expiry + -defensiveExpiry < now)

end sharedsecret

namespace oauth2

open sharedsecret

/-- Method `Token()` of an `oauth2.TokenSource` value.  Returns the result
pair, the source after the call, and the number of `Token()` calls made on
sources that are not a `defensiveReuseTokenSource`.  The second case is
`(*defensiveReuseTokenSource).Token`. -/
def TokenSource.Token {σ : Type} (fetch : σ → time.Time → TokenResult × σ) :
    TokenSource σ → time.Time → TokenResult × TokenSource σ × Nat
  | .other s, now => ((fetch s now).1, .other (fetch s now).2, 1)
  | .defensiveReuseTokenSource new t, now =>
    if valid t now then
      (⟨t, none⟩, .defensiveReuseTokenSource new t, 0)
    else
      match TokenSource.Token fetch new now with
      | (⟨tk, err⟩, new', n) =>
        match err with
        | some e => (⟨none, some e⟩, .defensiveReuseTokenSource new' t, n)
        | none => (⟨tk, none⟩, .defensiveReuseTokenSource new' tk, n)

end oauth2

namespace sharedsecret

open oauth2

/-- Function `DefensiveReuseTokenSource(t, src)`. -/
def DefensiveReuseTokenSource {σ : Type} (t : Option Token) (src : TokenSource σ) :
    TokenSource σ :=
  match src with
  | .defensiveReuseTokenSource new t0 =>
    match t with
    | none => .defensiveReuseTokenSource new t0
    | some _ => .defensiveReuseTokenSource new t
  | .other s => .defensiveReuseTokenSource (.other s) t

/-- A sequence of `Token()` calls at the given instants: the result pairs in
order, the source after the last call, and the running count of underlying
calls after each call. -/
def run {σ : Type} (fetch : σ → time.Time → TokenResult × σ) :
    TokenSource σ → Nat → List time.Time → List (TokenResult × Nat) × TokenSource σ
  | src, _, [] => ([], src)
  | src, n, now :: rest =>
    let out := src.Token fetch now
    let tail := run fetch out.2.1 (n + out.2.2) rest
    ((out.1, n + out.2.2) :: tail.1, tail.2)

/-- Field `t` of a source that is a `defensiveReuseTokenSource`. -/
def cached {σ : Type} : TokenSource σ → Option Token
  | .other _ => none
  | .defensiveReuseTokenSource _ t => t

/-- A stub source: every call succeeds with a token that expires `ttl` after
the instant of the call; its state is the number of calls it has served. -/
def stubFetch (ttl : time.Duration) (calls : Nat) (now : time.Time) : TokenResult × Nat :=
  (⟨some ⟨"tok", "Bearer", "", now + ttl⟩, none⟩, calls + 1)

/-- The instant 2016-01-01T00:00:00Z, used in the concrete scenarios. -/
def t0 : time.Time := 63587203200 * time.Second

/-- A source whose every call fails. -/
def failFetch (s : Unit) (_now : time.Time) : TokenResult × Unit :=
  (⟨none, some "fetch failed"⟩, s)

end sharedsecret

/-! ## Token sources built on the ID key

`TokenSource` and `ShortTokenSource` of `sharedsecret.go`.  The packages
`idkey`, `auth` and `accesstoken` are not part of the sources at hand: the
encoders `accesstoken.New` and `accesstoken.NewSelfSigned` and the function
`auth.UnmarshalScope` are arguments of the two `Token()` methods, and an
encoder receives the instant of the call as an argument because it reads the
clock.
-/

namespace idkey

/-- Modelled from the spec: the declaration of `idkey.IDKey` is missing.  The
spec's IdentityKey is `{ keyID, privateMaterial, publicMaterial }`, key
material being opaque; the source reads the key's identifier as `k.ID`. -/
structure IDKey where
  ID : String
  privateMaterial : String
  publicMaterial : String
deriving DecidableEq, Repr

end idkey

namespace auth

/-- Modelled from the spec: the declaration of `auth.Actor` is missing.  The
spec's Actor is `{ clientID, scope }`; the source sets the fields `ClientID`
and `Scope`, the latter to the value of `auth.UnmarshalScope`, of type `Sc`. -/
structure Actor (Sc : Type) where
  ClientID : String
  Scope : Sc
deriving DecidableEq, Repr

end auth

namespace sharedsecret

/-- Go `map[string]string`, as an association list. -/
abbrev Claims := List (String × String)

/-- Struct `tokenSource`. -/
structure tokenSource where
  k : idkey.IDKey
  scope : List String
deriving DecidableEq, Repr

/-- Function `TokenSource(k, scope...)`. -/
def TokenSource (k : idkey.IDKey) (scope : List String) : tokenSource :=
  ⟨k, scope⟩

/-- Method `(*tokenSource).Token`, with `New` standing for `accesstoken.New`
and `UnmarshalScope` for `auth.UnmarshalScope`. -/
def tokenSource.Token {Sc : Type}
    (New : idkey.IDKey → auth.Actor Sc → Claims → time.Duration → time.Time → oauth2.TokenResult)
    (UnmarshalScope : List String → Sc) (ts : tokenSource) (now : time.Time) :
    oauth2.TokenResult :=
  New ts.k ⟨ts.k.ID, UnmarshalScope ts.scope⟩ [("GrantType", "SharedSecret")] expiry now

/-- Struct `shortTokenSource`. -/
structure shortTokenSource where
  k : idkey.IDKey
  scope : List String
deriving DecidableEq, Repr

/-- Function `ShortTokenSource(k, scope...)`. -/
def ShortTokenSource (k : idkey.IDKey) (scope : List String) : shortTokenSource :=
  ⟨k, scope⟩

/-- Method `(*shortTokenSource).Token`, with `NewSelfSigned` standing for
`accesstoken.NewSelfSigned`. -/
def shortTokenSource.Token
    (NewSelfSigned : idkey.IDKey → List String → Claims → time.Duration → time.Time →
      oauth2.TokenResult)
    (ts : shortTokenSource) (now : time.Time) : oauth2.TokenResult :=
  NewSelfSigned ts.k ts.scope [("GrantType", "ShortSharedSecret")] expiry now

end sharedsecret

/-! ## The token codec

The file `auth/accesstoken/access_token.go` is not part of the sources at
hand, only its test is.  The codec below follows the specification's
TokenCodec (sections 3, 4.1, 4.2 and 6).
-/

namespace accesstoken

/-- Modelled from the spec: the error kinds of `Decode`, which is missing
(`MalformedTokenError`, `SignatureInvalidError`, `ExpiredTokenError`). -/
inductive DecodeError where
  | MalformedTokenError
  | SignatureInvalidError
  | ExpiredTokenError
deriving DecidableEq, Repr

/-- Modelled from the spec: the payload that the missing `Encode` signs: the
actor's client ID, the scope, the issuance timestamp, the extra claims, and
the ttl the expiry check of `Decode` needs. -/
structure Payload where
  clientID : String
  scope : List String
  issuedAt : time.Time
  ttl : time.Duration
  extraClaims : List (String × String)
deriving DecidableEq, Repr

/-- Modelled from the spec: the primitives the missing codec is built on, which
the spec leaves implementation-defined: `Sign` and `Verify` of the identity
key, and the wire format of the bearer value, of type `W`, as a pair of a
printer and a parser of a payload with its signature. -/
structure Codec (W : Type) where
  Sign : idkey.IDKey → Payload → String
  Verify : idkey.IDKey → Payload → String → Bool
  render : Payload → String → W
  parse : W → Option (Payload × String)

/-- Modelled from the spec: the Credential that the missing `Encode` returns,
`{ bearerString, expiryTime }`, under the field names of `oauth2.Token`. -/
structure Credential (W : Type) where
  AccessToken : W
  Expiry : time.Time
deriving DecidableEq, Repr

/-- Modelled from the spec: `Encode(key, actor, extraClaims, ttl)`, which is
missing, at the instant `now`: builds the payload, signs it with the key and
returns the bearer value with its expiry time. -/
def Encode {W : Type} (c : Codec W) (key : idkey.IDKey) (actor : auth.Actor (List String))
    (extraClaims : List (String × String)) (ttl : time.Duration) (now : time.Time) :
    Credential W :=
  ⟨c.render ⟨actor.ClientID, actor.Scope, now, ttl, extraClaims⟩
      (c.Sign key ⟨actor.ClientID, actor.Scope, now, ttl, extraClaims⟩),
    now + ttl⟩

/-- Modelled from the spec: `Decode(key, bearerString)`, which is missing, at
the verifier's instant `now`: `MalformedTokenError` if the wire format cannot
be parsed, `SignatureInvalidError` if `Verify` fails, `ExpiredTokenError` if
the current time exceeds issuance time + ttl, otherwise the actor and the
extra claims of the payload. -/
def Decode {W : Type} (c : Codec W) (key : idkey.IDKey) (now : time.Time) (bearer : W) :
    Except DecodeError (auth.Actor (List String) × List (String × String)) :=
  match c.parse bearer with
  | none => .error .MalformedTokenError
  | some (p, sig) =>
    if c.Verify key p sig = false then .error .SignatureInvalidError
    else if p.issuedAt + p.ttl < now then .error .ExpiredTokenError
    else .ok (⟨p.clientID, p.scope⟩, p.extraClaims)

/-- Modelled from the spec: `NewSelfSigned(k, scope, claims, ttl)`, which is
missing: the SelfSignedSource's local call of `Encode`, for the actor whose
client ID is the key's ID and whose scope is the given scope. -/
def NewSelfSigned {W : Type} (c : Codec W) (k : idkey.IDKey) (scope : List String)
    (claims : List (String × String)) (ttl : time.Duration) (now : time.Time) :
    Credential W :=
  Encode c k ⟨k.ID, scope⟩ claims ttl now

/-- Modelled from the spec: `ParseAndVerify(ctx, tok)`, which is missing:
`Decode` under the key bound to the context. -/
def ParseAndVerify {W : Type} (c : Codec W) (ctxKey : idkey.IDKey) (now : time.Time)
    (tok : W) : Except DecodeError (auth.Actor (List String) × List (String × String)) :=
  Decode c ctxKey now tok

/-- A codec whose bearer value is the payload paired with its signature, and
whose signature is the private key material followed by the client ID. -/
def pairCodec : Codec (Payload × String) where
  Sign := fun k p => k.privateMaterial ++ ":" ++ p.clientID
  Verify := fun k p sig => decide (sig = k.publicMaterial ++ ":" ++ p.clientID)
  render := fun p sig => (p, sig)
  parse := fun w => some w

/-- A key whose private and public material agree under `pairCodec`. -/
def testKey : idkey.IDKey := ⟨"k1", "secret", "secret"⟩

end accesstoken

/-! ## Further definitions for the defensive cache -/

namespace oauth2

/-- Modelled from the spec: the constant `expiryDelta` of `golang.org/x/oauth2`
is not part of the sources at hand; the comment on `expiry` gives its value, 10
seconds. -/
def expiryDelta : time.Duration := 10 * time.Second

/-- Number of `s.mu.Lock()` calls made during one `Token()` call at `now`:
`(*defensiveReuseTokenSource).Token` locks its mutex on entry, and on a miss
calls `s.new.Token()`. -/
def TokenSource.locks {σ : Type} : TokenSource σ → time.Time → Nat
  | .other _, _ => 0
  | .defensiveReuseTokenSource new t, now =>
    if sharedsecret.valid t now then 1 else 1 + new.locks now

/-- Whether the value is a `*defensiveReuseTokenSource`: the type assertion
`src.(*defensiveReuseTokenSource)`. -/
def TokenSource.isDefensive {σ : Type} : TokenSource σ → Bool
  | .other _ => false
  | .defensiveReuseTokenSource _ _ => true

/-- Whether the value is a `*defensiveReuseTokenSource` whose field `new` is
again a `*defensiveReuseTokenSource`. -/
def TokenSource.nested {σ : Type} : TokenSource σ → Bool
  | .other _ => false
  | .defensiveReuseTokenSource new _ => new.isDefensive

end oauth2

namespace sharedsecret

/-- The token source values that can arise from sources of other dynamic types
by applying `DefensiveReuseTokenSource` any number of times, with `Token()`
calls in between. -/
inductive Built {σ : Type} (fetch : σ → time.Time → oauth2.TokenResult × σ) :
    oauth2.TokenSource σ → Prop where
  | base (s : σ) : Built fetch (.other s)
  | wrap (t : Option oauth2.Token) (src : oauth2.TokenSource σ) :
      Built fetch src → Built fetch (DefensiveReuseTokenSource t src)
  | call (src : oauth2.TokenSource σ) (now : time.Time) :
      Built fetch src → Built fetch (src.Token fetch now).2.1

end sharedsecret

/-! ## Repository frames (`app/repo_frame.go`)

Go strings are compared by `<` byte by byte; the code points of the characters
of a string are in the same order as its UTF-8 bytes, so the comparison below
goes by characters.
-/

namespace sort

/-- Go `<` on strings, on the lists of characters. -/
def lessChars : List Char → List Char → Bool
  | [], [] => false
  | [], _ :: _ => true
  | _ :: _, [] => false
  | a :: as, b :: bs =>
    if a.toNat < b.toNat then true
    else if b.toNat < a.toNat then false
    else lessChars as bs

/-- Go `<` on strings. -/
def Less (a b : String) : Bool := lessChars a.toList b.toList

/-- Go `sort.Strings`: the strings in increasing order.  Equal strings cannot be
told apart, so the sorted slice does not depend on the sorting algorithm; this
one inserts each string before the first one that is not smaller. -/
def Strings (x : List String) : List String :=
  List.insertionSort (fun a b => Less b a = false) x

end sort

namespace platform

/-- Go `platform.RepoFrame`: the fields read by `orderedRepoEnabledFrames` and
`serveRepoFrame`; `Enable` may be nil. -/
structure RepoFrame (Repo : Type) where
  ID : String
  Title : String
  Enable : Option (Repo → Bool)

end platform

namespace app

/-- Function `isAlwaysEnabledApp`. -/
def isAlwaysEnabledApp (app : String) : Bool := decide (app = "changes")

/-- The test in the loop over `platform.Frames()`:
`isAlwaysEnabledApp(frame.ID) || repoConf.IsAppEnabled(frame.ID) ||
(frame.Enable != nil && frame.Enable(repo))`. -/
def frameEnabled {Repo : Type} (IsAppEnabled : String → Bool) (repo : Repo)
    (frame : platform.RepoFrame Repo) : Bool :=
  isAlwaysEnabledApp frame.ID || IsAppEnabled frame.ID ||
    (match frame.Enable with
     | none => false
     | some enable => enable repo)

/-- The assignment `frames[frame.ID] = frame` on a map held as an association
list. -/
def mapSet {Repo : Type} (frames : List (String × platform.RepoFrame Repo))
    (frame : platform.RepoFrame Repo) : List (String × platform.RepoFrame Repo) :=
  frames.filter (fun kv => decide (kv.1 ≠ frame.ID)) ++ [(frame.ID, frame)]

/-- The loop `for i, appID := range orderedIDs` of `orderedRepoEnabledFrames`,
with `n` iterations left and the index at `i`: when `orderedIDs[i]` is
`"changes"` the elements at `0` and `i` are exchanged. -/
def changesFirst : Nat → Nat → List String → List String
  | 0, _, orderedIDs => orderedIDs
  | n + 1, i, orderedIDs =>
    changesFirst n (i + 1)
      (if orderedIDs.getD i "" = "changes" then
        (orderedIDs.set 0 (orderedIDs.getD i "")).set i (orderedIDs.getD 0 "")
      else orderedIDs)

/-- The app IDs appended to `orderedIDs` by the loop over `platform.Frames()`. -/
def enabledIDs {Repo : Type} (Frames : List (platform.RepoFrame Repo))
    (IsAppEnabled : String → Bool) (repo : Repo) : List String :=
  (Frames.filter (frameEnabled IsAppEnabled repo)).map (fun frame => frame.ID)

/-- Function `orderedRepoEnabledFrames(repo, repoConf)`, with the flag
`appconf.Flags.DisableApps`, the value of `platform.Frames()` and the method
`repoConf.IsAppEnabled` as arguments. -/
def orderedRepoEnabledFrames {Repo : Type} (DisableApps : Bool)
    (Frames : List (platform.RepoFrame Repo)) (IsAppEnabled : String → Bool) (repo : Repo) :
    List (String × platform.RepoFrame Repo) × List String :=
  if DisableApps then ([], [])
  else
    ((Frames.filter (frameEnabled IsAppEnabled repo)).foldl mapSet [],
      changesFirst (sort.Strings (enabledIDs Frames IsAppEnabled repo)).length 0
        (sort.Strings (enabledIDs Frames IsAppEnabled repo)))

/-- The message of the error `errPlatformAppPublicFacingFatalError`. -/
def errPlatformAppPublicFacingFatalError : String :=
  "Sorry, there’s been a problem with this app."

/-- What `serveRepoFrame` does with the response of the app: relays it to the
browser, returns the gRPC `Unauthenticated` error, or executes the template
`repo/frame.html` with the fields `AppHTML` and `AppError` (an error by its
message, `none` for nil). -/
inductive FrameOutcome where
  | relayed (code : Nat) (body : String)
  | unauthenticated
  | rendered (AppHTML : String) (AppError : Option String)
deriving DecidableEq, Repr

/-- Function `serveRepoFrame`, from the return of `app.Handler.ServeHTTP(rr,
rCopy)` on: `code` is `rr.Code`, `verbatim` is the value of the header
`platform.HTTPHeaderVerbatim`, `body` the recorded body, `user` the value of
`handlerutil.UserFromContext(ctx)` and `debug` that of
`handlerutil.DebugMode(r)`. -/
def serveRepoFrame (code : Nat) (verbatim body : String) (user : Option String)
    (debug : Bool) : FrameOutcome :=
  let redirect := code = 303 ∨ code = 301 ∨ code = 307 ∨ code = 302
  if verbatim = "true" ∨ redirect then .relayed code body
  else if code = 200 then .rendered body none
  else if code = 401 ∧ user = none then .unauthenticated
  else
    let appError := body
    let appError := if debug = false then errPlatformAppPublicFacingFatalError else appError
    .rendered "" (some appError)

/-- Three registered frames, none with an `Enable` function. -/
def sampleFrames : List (platform.RepoFrame Unit) :=
  [⟨"builds", "Builds", none⟩, ⟨"changes", "Changes", none⟩, ⟨"apps", "Apps", none⟩]

end app

/-! ## The build log store (`server/internal/store/fs/build_logs.go`)

The functions of the Go standard library that the store calls are written out
here: `strings.Split`, `strings.HasPrefix`, `strconv.Atoi` (for a 64-bit
`int`), `strconv.Itoa`, `path.Clean` and `filepath.Join` (for the separator
`/`).  File names and paths are lists of characters; `/` and `.` are single
bytes of a Go string and never part of a longer character, so reading a string
by characters or by bytes makes no difference to these functions.
-/

namespace strings

/-- Go `strings.Split(s, sep)` for a separator of one byte. -/
def Split (s : String) (sep : Char) : List String :=
  (s.toList.splitOn sep).map String.mk

/-- Go `strings.HasPrefix(s, p)`. -/
def HasPrefix (s p : List Char) : Bool := p.isPrefixOf s

end strings

namespace strconv

/-- The loop of Go `strconv.ParseUint(s, 10, 64)` over the bytes still to read,
with `n` the value so far: the value and the error (`none` for nil, otherwise
the text of `ErrSyntax` or `ErrRange`).  A byte that is not a decimal digit is
a syntax error with value 0; a value past the largest 64-bit unsigned integer
is a range error with that integer as the value, found before the bytes after
it are read. -/
def parseUintLoop : List Char → Nat → Nat × Option String
  | [], n => (n, none)
  | d :: ds, n =>
    if d.isDigit = false then (0, some "invalid syntax")
    else if (2 ^ 64 - 1) / 10 + 1 ≤ n then (2 ^ 64 - 1, some "value out of range")
    else if 2 ^ 64 - 1 < 10 * n + (d.toNat - '0'.toNat) then
      (2 ^ 64 - 1, some "value out of range")
    else parseUintLoop ds (10 * n + (d.toNat - '0'.toNat))

/-- Go `strconv.Atoi(s)` with a 64-bit `int`, that is `ParseInt(s, 10, 0)`: the
value and the error (`none` for nil, otherwise the text of the field `Err` of
the `*NumError`).  An optional sign, then `ParseUint` on the rest; a syntax
error gives 0 and a value out of range gives the nearest bound. -/
def Atoi (s : String) : Int × Option String :=
  match s.toList with
  | [] => (0, some "invalid syntax")
  | c :: cs =>
    let digits := if c = '+' ∨ c = '-' then cs else c :: cs
    if digits = [] then (0, some "invalid syntax")
    else
      match parseUintLoop digits 0 with
      | (un, err) =>
        if err = some "invalid syntax" then (0, some "invalid syntax")
        else if c ≠ '-' ∧ 2 ^ 63 ≤ un then (2 ^ 63 - 1, some "value out of range")
        else if c = '-' ∧ 2 ^ 63 < un then (-(2 ^ 63), some "value out of range")
        else (if c = '-' then -(un : Int) else (un : Int), none)

/-- Go `strconv.Itoa(i)`. -/
def Itoa (i : Int) : String := toString i

end strconv

namespace path

/-- The inner loop of `path.Clean` on a `..` element,
`for out.w > dotdot && out.index(out.w) != '/' { out.w-- }`, started at `w`:
the value of `out.w` after it. -/
def backtrack (buf : List Char) (dotdot : Nat) : Nat → Nat
  | 0 => 0
  | w + 1 =>
    if dotdot < w + 1 ∧ buf.getD (w + 1) '/' ≠ '/' then backtrack buf dotdot w else w + 1

/-- One iteration of the loop `for r < n` of `path.Clean`, when `path[r:]` is
`c :: rest`, `out` holds the bytes written so far and `dotdot` is the index
where `..` must stop: what is left to read, and `out` and `dotdot` after the
iteration.  The four cases are an empty element, a `.` element, a `..` element
and a real element. -/
def cleanStep (rooted : Bool) (c : Char) (rest out : List Char) (dotdot : Nat) :
    List Char × List Char × Nat :=
  if c = '/' then
    (rest, out, dotdot)
  else if c = '.' ∧ (rest = [] ∨ rest.head? = some '/') then
    (rest, out, dotdot)
  else if c = '.' ∧ rest.head? = some '.' ∧ (rest.tail = [] ∨ rest.tail.head? = some '/') then
    if dotdot < out.length then
      (rest.tail, out.take (backtrack out dotdot (out.length - 1)), dotdot)
    else if rooted = false then
      (rest.tail, (if 0 < out.length then out ++ ['/'] else out) ++ ['.', '.'],
        ((if 0 < out.length then out ++ ['/'] else out) ++ ['.', '.']).length)
    else
      (rest.tail, out, dotdot)
  else
    ((c :: rest).dropWhile (fun x => decide (x ≠ '/')),
      (if (rooted = true ∧ out.length ≠ 1) ∨ (rooted = false ∧ out.length ≠ 0)
          then out ++ ['/'] else out)
        ++ (c :: rest).takeWhile (fun x => decide (x ≠ '/')),
      dotdot)

/-- The loop `for r < n` of `path.Clean`: `rest` is `path[r:]`; returns `out`
and `dotdot` after the loop.  Every iteration consumes at least one byte, and
the first argument bounds the number of iterations. -/
def cleanLoop (rooted : Bool) : Nat → List Char → List Char → Nat → List Char × Nat
  | 0, _, out, dotdot => (out, dotdot)
  | _ + 1, [], out, dotdot => (out, dotdot)
  | fuel + 1, c :: rest, out, dotdot =>
    cleanLoop rooted fuel (cleanStep rooted c rest out dotdot).1
      (cleanStep rooted c rest out dotdot).2.1 (cleanStep rooted c rest out dotdot).2.2

/-- Go `path.Clean(path)`. -/
def Clean (path : List Char) : List Char :=
  if path = [] then ['.']
  else
    let rooted := decide (path.head? = some '/')
    let out := (cleanLoop rooted path.length (if rooted then path.tail else path)
      (if rooted then ['/'] else []) (if rooted then 1 else 0)).1
    if out.length = 0 then ['.'] else out

/-- The loop of `Clean` run on `rest` to its end. -/
def cleanFrom (rooted : Bool) (rest out : List Char) (dotdot : Nat) : List Char × Nat :=
  cleanLoop rooted rest.length rest out dotdot

/-- A path element that `Clean` keeps as it is: not empty, without `/`, and
neither `.` nor `..`. -/
def IsElem (s : List Char) : Prop :=
  s ≠ [] ∧ '/' ∉ s ∧ s ≠ ['.'] ∧ s ≠ ['.', '.']

/-- The shape of `out` and `dotdot` during the loop of `Clean`: the leading `/`
of a rooted path, or else `k` leading `..` elements, then the kept elements
`segs`, all joined by `/`; `dotdot` is the length of the part that `..` cannot
remove. -/
def Shape (rooted : Bool) (k : Nat) (segs : List (List Char)) (out : List Char)
    (dotdot : Nat) : Prop :=
  (∀ s ∈ segs, IsElem s) ∧ (rooted = true → k = 0)
  ∧ out = (if rooted then ['/'] else [])
      ++ List.intercalate ['/'] (List.replicate k ['.', '.'] ++ segs)
  ∧ dotdot = (if rooted then 1 else 0)
      + (List.intercalate ['/'] (List.replicate k ['.', '.'])).length

end path

namespace filepath

/-- Go `filepath.Clean(path)` where the separator is `/`. -/
def Clean (name : List Char) : List Char := path.Clean name

/-- Go `filepath.Join(elem...)` where the separator is `/`: the elements from
the first non-empty one on, joined by `/` and cleaned. -/
def Join : List (List Char) → List Char
  | [] => []
  | e :: rest => if e ≠ [] then Clean (List.intercalate ['/'] (e :: rest)) else Join rest

/-- The part of a path that names the directory `dir` itself: empty for the
empty name, `/` for the root, empty when the cleaned name is `.`, and otherwise
the cleaned name followed by `/`. -/
def dirBase (dir : List Char) : List Char :=
  if dir = [] then []
  else if Clean dir = ['/'] then ['/']
  else if Clean dir = ['.'] then []
  else Clean dir ++ ['/']

end filepath

namespace fs

/-- A Go slice expression `s[low:]`; `none` when the index is out of range. -/
def sliceFrom {α : Type} (s : List α) (low : Int) : Option (List α) :=
  if 0 ≤ low ∧ low ≤ s.length then some (s.drop low.toNat) else none

/-- Function `logFilePath(task)`, with `conf.BuildLogDir` and the value of
`task.IDString()` as arguments; `none` when the index expression `[1:]` is out
of range. -/
def logFilePath (BuildLogDir IDString : List Char) : Option (List Char) :=
  let p := IDString ++ ".log".toList
  let p := if strings.HasPrefix p "/".toList = false then "/".toList ++ p else p
  match sliceFrom (path.Clean p) 1 with
  | none => none
  | some p => some (filepath.Join [BuildLogDir, p])

/-- Go `sourcegraph.LogEntries`. -/
structure LogEntries where
  Entries : List String
  MaxID : String
deriving DecidableEq, Repr

/-- The result of `ioutil.ReadFile(logFilePath(task))`: the content, an error
for which `os.IsNotExist` holds, or another error. -/
inductive ReadFile where
  | content (b : String)
  | notExist
  | failed (err : String)
deriving DecidableEq, Repr

/-- What a call returns: a value with a nil error, an error, or a run-time
panic. -/
inductive Outcome (α : Type) where
  | value (a : α)
  | error (err : String)
  | panic
deriving DecidableEq, Repr

/-- Method `(*BuildLogs).Get`, with the result of
`accesscontrol.VerifyUserHasReadAccess` (`none` for nil) and the result of
reading the log file as arguments. -/
def Get (accessErr : Option String) (file : ReadFile) (minIDStr : String) :
    Outcome LogEntries :=
  match accessErr with
  | some err => .error err
  | none =>
    match file with
    | .notExist => .value ⟨[], ""⟩
    | .failed err => .error err
    | .content b =>
      if b.length = 0 then .value ⟨[], ""⟩
      else
        let lines := strings.Split b '\n'
        match strconv.Atoi minIDStr with
        | (minID, err) =>
          match err with
          | some e =>
            if minIDStr ≠ "" then .error e
            else
              match sliceFrom lines
                (if minID < 0 then 0 else if (lines.length : Int) < minID then lines.length
                  else minID) with
              | none => .panic
              | some entries => .value ⟨entries, strconv.Itoa (lines.length - 1)⟩
          | none =>
            match sliceFrom lines
              (if minID < 0 then 0 else if (lines.length : Int) < minID then lines.length
                else minID) with
            | none => .panic
            | some entries => .value ⟨entries, strconv.Itoa (lines.length - 1)⟩

end fs

namespace oauth2

/-- What a `Token()` call does, in order, with the mutexes of the defensive
sources and with the sources of other dynamic types: locking `s.mu`, calling
`Token()` of a source that is not defensive, unlocking `s.mu`. -/
inductive Event where
  | lock
  | fetch
  | unlock
deriving DecidableEq, Repr

/-- The events of one `Token()` call at `now`.
`(*defensiveReuseTokenSource).Token` locks `s.mu` on entry and defers the
unlock to its return, whichever return it is; it calls `s.new.Token()` only
when `s.valid()` is false. -/
def TokenSource.events {σ : Type} : TokenSource σ → time.Time → List Event
  | .other _, _ => [.fetch]
  | .defensiveReuseTokenSource new t, now =>
    if sharedsecret.valid t now then [.lock, .unlock]
    else .lock :: (new.events now ++ [.unlock])

end oauth2

/-! ## Theorems: the defensive cache -/

namespace sharedsecret

open oauth2

/-- What `valid` computes on a non-nil token: the token has an access token, a
non-zero expiry, and expires less than `defensiveExpiry` after `now`. -/
theorem valid_some_iff (tk : oauth2.Token) (now : time.Time) :
    valid (some tk) now = true ↔
      tk.AccessToken ≠ "" ∧ tk.Expiry ≠ 0 ∧ tk.Expiry - now < defensiveExpiry := by
  unfold valid
  by_cases h : tk.AccessToken = "" ∨ tk.Expiry = 0
  · simp only [h, if_true]
    constructor
    · intro hf
      cases hf
    · rintro ⟨h1, h2, _⟩
      rcases h with h | h
      · exact absurd h h1
      · exact absurd h h2
  · simp only [h, if_false, decide_eq_true_eq]
    push_neg at h
    constructor
    · intro hlt
      exact ⟨h.1, h.2, by linarith⟩
    · rintro ⟨_, _, hlt⟩
      linarith

/-- The nil token is never valid. -/
theorem valid_none (now : time.Time) : valid none now = false := rfl

/-- Cache hit: a valid cached token is returned and nothing else happens. -/
theorem Token_of_valid {σ : Type} (fetch : σ → time.Time → TokenResult × σ)
    (new : oauth2.TokenSource σ) (t : Option oauth2.Token) (now : time.Time)
    (hv : valid t now = true) :
    (oauth2.TokenSource.defensiveReuseTokenSource new t).Token fetch now =
      (⟨t, none⟩, .defensiveReuseTokenSource new t, 0) := by
  simp [oauth2.TokenSource.Token, hv]

/-- Cache miss with a failing fetch. -/
theorem Token_of_invalid_err {σ : Type} (fetch : σ → time.Time → TokenResult × σ)
    (new : oauth2.TokenSource σ) (t : Option oauth2.Token) (now : time.Time) (e : String)
    (hv : valid t now = false) (he : (new.Token fetch now).1.err = some e) :
    (oauth2.TokenSource.defensiveReuseTokenSource new t).Token fetch now =
      (⟨none, some e⟩, .defensiveReuseTokenSource (new.Token fetch now).2.1 t,
        (new.Token fetch now).2.2) := by
  rcases hr : new.Token fetch now with ⟨⟨tk, err⟩, new', n⟩
  rw [hr] at he
  simp only at he
  subst he
  simp [oauth2.TokenSource.Token, hv, hr]

/-- Cache miss with a successful fetch. -/
theorem Token_of_invalid_ok {σ : Type} (fetch : σ → time.Time → TokenResult × σ)
    (new : oauth2.TokenSource σ) (t : Option oauth2.Token) (now : time.Time)
    (hv : valid t now = false) (he : (new.Token fetch now).1.err = none) :
    (oauth2.TokenSource.defensiveReuseTokenSource new t).Token fetch now =
      (⟨(new.Token fetch now).1.tok, none⟩,
        .defensiveReuseTokenSource (new.Token fetch now).2.1 (new.Token fetch now).1.tok,
        (new.Token fetch now).2.2) := by
  rcases hr : new.Token fetch now with ⟨⟨tk, err⟩, new', n⟩
  rw [hr] at he
  simp only at he
  subst he
  simp [oauth2.TokenSource.Token, hv, hr]

/-- A source of another dynamic type is called exactly once by its `Token()`. -/
theorem Token_other {σ : Type} (fetch : σ → time.Time → TokenResult × σ)
    (s : σ) (now : time.Time) :
    (oauth2.TokenSource.other s).Token fetch now = ((fetch s now).1, .other (fetch s now).2, 1) := by
  simp [oauth2.TokenSource.Token]

end sharedsecret

namespace sharedsecret

open oauth2

/-- A token with at least `defensiveExpiry` left is not `valid`. -/
theorem valid_eq_false_of_remaining (tk : oauth2.Token) (now : time.Time)
    (h : defensiveExpiry ≤ tk.Expiry - now) : valid (some tk) now = false := by
  rw [Bool.eq_false_iff]
  intro hv
  have := ((valid_some_iff tk now).1 hv).2.2
  linarith

/-- A miss on a cache over the stub source: one call, the new token cached. -/
theorem Token_stub_of_invalid (ttl : time.Duration) (c : Nat) (t : Option oauth2.Token)
    (now : time.Time) (hv : valid t now = false) :
    (oauth2.TokenSource.defensiveReuseTokenSource (.other c) t).Token (stubFetch ttl) now =
      (⟨some ⟨"tok", "Bearer", "", now + ttl⟩, none⟩,
        .defensiveReuseTokenSource (.other (c + 1)) (some ⟨"tok", "Bearer", "", now + ttl⟩),
        1) := by
  rw [Token_of_invalid_ok _ _ _ _ hv (by simp [oauth2.TokenSource.Token, stubFetch])]
  simp [oauth2.TokenSource.Token, stubFetch]

/-- Unfolding `run` on a non-empty list of instants. -/
theorem run_cons {σ : Type} (fetch : σ → time.Time → TokenResult × σ) (src : oauth2.TokenSource σ)
    (n : Nat) (now : time.Time) (rest : List time.Time) :
    run fetch src n (now :: rest) =
      (((src.Token fetch now).1, n + (src.Token fetch now).2.2) ::
          (run fetch (src.Token fetch now).2.1 (n + (src.Token fetch now).2.2) rest).1,
        (run fetch (src.Token fetch now).2.1 (n + (src.Token fetch now).2.2) rest).2) := rfl

/-- Unfolding `run` on no calls. -/
theorem run_nil {σ : Type} (fetch : σ → time.Time → TokenResult × σ) (src : oauth2.TokenSource σ)
    (n : Nat) : run fetch src n [] = ([], src) := rfl

/-- A call on a cache directly over a non-defensive source calls it at most once. -/
theorem Token_single_layer_calls_le_one {σ : Type} (fetch : σ → time.Time → TokenResult × σ)
    (s : σ) (t : Option oauth2.Token) (now : time.Time) :
    ((oauth2.TokenSource.defensiveReuseTokenSource (.other s) t).Token fetch now).2.2 ≤ 1 := by
  cases hv : valid t now
  · cases he : ((oauth2.TokenSource.other s).Token fetch now).1.err with
    | none => rw [Token_of_invalid_ok fetch _ t now hv he, Token_other]
    | some e => rw [Token_of_invalid_err fetch _ t now e hv he, Token_other]
  · rw [Token_of_valid fetch _ t now hv]
    exact Nat.zero_le 1

/-- C1 (the code at the failing inputs): with `now = t0`, a cached token whose
`Expiry` is `now + defensiveExpiry + 1` is not served: `Token()` calls the
underlying source once and returns and caches the fetched token; a cached token
whose `Expiry` is `now + defensiveExpiry - 1` is served from the cache with no
call.  Both are the opposite of what the claim requires. -/
theorem C1_margin_check_is_inverted :
    (oauth2.TokenSource.defensiveReuseTokenSource (.other 0)
        (some ⟨"a", "Bearer", "", t0 + defensiveExpiry + 1⟩)).Token (stubFetch expiry) t0
      = (⟨some ⟨"tok", "Bearer", "", t0 + expiry⟩, none⟩,
          .defensiveReuseTokenSource (.other 1) (some ⟨"tok", "Bearer", "", t0 + expiry⟩), 1)
    ∧ (oauth2.TokenSource.defensiveReuseTokenSource (.other 0)
        (some ⟨"a", "Bearer", "", t0 + defensiveExpiry - 1⟩)).Token (stubFetch expiry) t0
      = (⟨some ⟨"a", "Bearer", "", t0 + defensiveExpiry - 1⟩, none⟩,
          .defensiveReuseTokenSource (.other 0)
            (some ⟨"a", "Bearer", "", t0 + defensiveExpiry - 1⟩), 0) := by
  decide

/-- C2 (the code at the failing input): the stub source only returns tokens
that expire `expiry >= defensiveExpiry` after they are fetched; a cache built
with no initial token and called at `t0` and at `t0 + 150 minutes` makes one
underlying call and answers the second call with the token fetched by the
first, which then has 30 minutes left, less than `defensiveExpiry`. -/
theorem C2_served_token_has_less_than_margin_left :
    (∀ (c : Nat) (now : time.Time),
        (stubFetch expiry c now).1.tok.map (fun tk => decide (defensiveExpiry ≤ tk.Expiry - now))
          = some true)
    ∧ (run (stubFetch expiry) (DefensiveReuseTokenSource none (.other 0)) 0
        [t0, t0 + 150 * time.Minute]).1
      = [(⟨some ⟨"tok", "Bearer", "", t0 + expiry⟩, none⟩, 1),
         (⟨some ⟨"tok", "Bearer", "", t0 + expiry⟩, none⟩, 1)]
    ∧ (t0 + expiry) - (t0 + 150 * time.Minute) = 30 * time.Minute
    ∧ (t0 + expiry) - (t0 + 150 * time.Minute) < defensiveExpiry := by
  refine ⟨?_, by decide, by decide, by decide⟩
  intro c now
  simp [stubFetch, expiry, defensiveExpiry, time.Minute, time.Second]

/-- C3 (counterexample): at `t0` the cache holds a token that `valid` rejects
(its `Expiry` is the zero instant), so `Token()` calls the underlying source,
which fails.  `Token()` returns the
failure with no token, but the cache still holds the old token afterwards: it
was not discarded. -/
theorem C3_failed_refresh_keeps_cached_token :
    valid (some ⟨"a", "Bearer", "", 0⟩) t0 = false
    ∧ ((oauth2.TokenSource.defensiveReuseTokenSource (.other ())
          (some ⟨"a", "Bearer", "", 0⟩)).Token failFetch t0).1
        = ⟨none, some "fetch failed"⟩
    ∧ cached ((oauth2.TokenSource.defensiveReuseTokenSource (.other ())
          (some ⟨"a", "Bearer", "", 0⟩)).Token failFetch t0).2.1
        = some ⟨"a", "Bearer", "", 0⟩
    ∧ cached ((oauth2.TokenSource.defensiveReuseTokenSource (.other ())
          (some ⟨"a", "Bearer", "", 0⟩)).Token failFetch t0).2.1
        ≠ none := by
  decide

/-- C3 (amended): when `Token()` has to refresh (`valid` is false) and the
underlying `Token()` fails with `e`, the call returns `(nil, e)` and the cached
token is left exactly as it was, only the underlying source has advanced by its
one call; a cache that was empty stays empty, and over a non-defensive source
its next `Token()` call, at any instant, calls the underlying source again. -/
theorem C3_failed_refresh_returns_error_cache_unchanged {σ : Type}
    (fetch : σ → time.Time → TokenResult × σ) (new : oauth2.TokenSource σ)
    (t : Option oauth2.Token) (now : time.Time) (e : String)
    (hv : valid t now = false) (he : (new.Token fetch now).1.err = some e) :
    ((oauth2.TokenSource.defensiveReuseTokenSource new t).Token fetch now).1 = ⟨none, some e⟩
    ∧ ((oauth2.TokenSource.defensiveReuseTokenSource new t).Token fetch now).2.1
        = .defensiveReuseTokenSource (new.Token fetch now).2.1 t
    ∧ cached ((oauth2.TokenSource.defensiveReuseTokenSource new t).Token fetch now).2.1 = t
    ∧ ((oauth2.TokenSource.defensiveReuseTokenSource new t).Token fetch now).2.2
        = (new.Token fetch now).2.2
    ∧ (∀ s : σ, new = .other s → t = none → ∀ now2 : time.Time,
        ((((oauth2.TokenSource.defensiveReuseTokenSource new t).Token fetch now).2.1).Token
          fetch now2).2.2 = 1) := by
  rw [Token_of_invalid_err fetch new t now e hv he]
  refine ⟨rfl, rfl, rfl, rfl, ?_⟩
  intro s hs ht now2
  subst hs
  subst ht
  simp only [Token_other]
  cases he2 : ((oauth2.TokenSource.other (fetch s now).2).Token fetch now2).1.err with
  | none => rw [Token_of_invalid_ok fetch _ none now2 (valid_none now2) he2, Token_other]
  | some e2 => rw [Token_of_invalid_err fetch _ none now2 e2 (valid_none now2) he2, Token_other]

/-- C3 (witness): the amended statement at the counterexample's input. -/
theorem C3_failed_refresh_returns_error_cache_unchanged_witness :
    valid (some ⟨"a", "Bearer", "", 0⟩) t0 = false
    ∧ ((oauth2.TokenSource.other ()).Token failFetch t0).1.err = some "fetch failed"
    ∧ ((oauth2.TokenSource.defensiveReuseTokenSource (.other ())
          (some ⟨"a", "Bearer", "", 0⟩)).Token failFetch t0).1
        = ⟨none, some "fetch failed"⟩
    ∧ cached ((oauth2.TokenSource.defensiveReuseTokenSource (.other ())
          (some ⟨"a", "Bearer", "", 0⟩)).Token failFetch t0).2.1
        = some ⟨"a", "Bearer", "", 0⟩ :=
  ⟨by decide, by decide,
    (C3_failed_refresh_returns_error_cache_unchanged failFetch (.other ())
      (some ⟨"a", "Bearer", "", 0⟩) t0 "fetch failed"
      (by decide) (by decide)).1,
    (C3_failed_refresh_returns_error_cache_unchanged failFetch (.other ())
      (some ⟨"a", "Bearer", "", 0⟩) t0 "fetch failed"
      (by decide) (by decide)).2.2.1⟩

/-- C4: a defensive source `rt` built over a non-defensive source `u` is not
wrapped again.  `DefensiveReuseTokenSource(nil, rt)` is `rt` itself, and with a
non-nil `t` the result equals `DefensiveReuseTokenSource(t, u)`, a single cache
holding `t` whose field `new` is `u`.  Hence over every sequence of calls the
results and the running counts of calls to `u` are those of the single wrap,
and no call on the result calls `u` more than once. -/
theorem C4_nested_wrap_collapses {σ : Type} (fetch : σ → time.Time → TokenResult × σ)
    (s : σ) (tinit : Option oauth2.Token) (tk : oauth2.Token) (n : Nat)
    (times : List time.Time) :
    DefensiveReuseTokenSource none (DefensiveReuseTokenSource tinit (.other s))
        = DefensiveReuseTokenSource tinit (.other s)
    ∧ DefensiveReuseTokenSource (some tk) (DefensiveReuseTokenSource tinit (.other s))
        = DefensiveReuseTokenSource (some tk) (.other s)
    ∧ DefensiveReuseTokenSource (some tk) (DefensiveReuseTokenSource tinit (.other s))
        = .defensiveReuseTokenSource (.other s) (some tk)
    ∧ run fetch (DefensiveReuseTokenSource none (DefensiveReuseTokenSource tinit (.other s)))
          n times
        = run fetch (DefensiveReuseTokenSource tinit (.other s)) n times
    ∧ run fetch (DefensiveReuseTokenSource (some tk)
          (DefensiveReuseTokenSource tinit (.other s))) n times
        = run fetch (DefensiveReuseTokenSource (some tk) (.other s)) n times
    ∧ (∀ (t : Option oauth2.Token) (now : time.Time),
        ((DefensiveReuseTokenSource t (DefensiveReuseTokenSource tinit (.other s))).Token
          fetch now).2.2 ≤ 1) := by
  have h1 : DefensiveReuseTokenSource none (DefensiveReuseTokenSource tinit (.other s))
      = DefensiveReuseTokenSource tinit (oauth2.TokenSource.other s) := rfl
  have h2 : DefensiveReuseTokenSource (some tk) (DefensiveReuseTokenSource tinit (.other s))
      = DefensiveReuseTokenSource (some tk) (oauth2.TokenSource.other s) := rfl
  refine ⟨h1, h2, rfl, by rw [h1], by rw [h2], ?_⟩
  intro t now
  cases t with
  | none => exact Token_single_layer_calls_le_one fetch s tinit now
  | some t1 => exact Token_single_layer_calls_le_one fetch s (some t1) now

/-- C5 (the code on the scenario): a cache with no initial token over the stub
source whose tokens expire `expiry` (3 hours) after the fetch, called at `T0`,
`T0 + 30min` and `T0 + 2h30min`, has made 1, 2 and 3 underlying calls after the
three calls, for every start `T0`: the second call is not served from the
cache.  The claim's counts are 1, 1 and 2. -/
theorem C5_scenario_call_counts_are_1_2_3 (T0 : time.Time) :
    (run (stubFetch expiry) (DefensiveReuseTokenSource none (.other 0)) 0
        [T0, T0 + 30 * time.Minute, T0 + 150 * time.Minute]).1.map Prod.snd = [1, 2, 3]
    ∧ (run (stubFetch expiry) (DefensiveReuseTokenSource none (.other 0)) 0
        [T0, T0 + 30 * time.Minute, T0 + 150 * time.Minute]).1.map Prod.snd ≠ [1, 1, 2] := by
  have h2 : valid (some ⟨"tok", "Bearer", "", T0 + expiry⟩) (T0 + 30 * time.Minute) = false :=
    valid_eq_false_of_remaining _ _ (by
      simp only [expiry, defensiveExpiry, time.Minute, time.Second]; linarith)
  have h3 : valid (some ⟨"tok", "Bearer", "", T0 + 30 * time.Minute + expiry⟩)
      (T0 + 150 * time.Minute) = false :=
    valid_eq_false_of_remaining _ _ (by
      simp only [expiry, defensiveExpiry, time.Minute, time.Second]; linarith)
  have h : (run (stubFetch expiry) (DefensiveReuseTokenSource none (.other 0)) 0
        [T0, T0 + 30 * time.Minute, T0 + 150 * time.Minute]).1.map Prod.snd = [1, 2, 3] := by
    simp only [run_cons, run_nil, DefensiveReuseTokenSource,
      Token_stub_of_invalid _ _ _ _ (valid_none T0), Token_stub_of_invalid _ _ _ _ h2,
      Token_stub_of_invalid _ _ _ _ h3, List.map]
  refine ⟨h, ?_⟩
  rw [h]
  decide

/-- C6: when `Token()` has to call the underlying source (`valid` is false:
the cache is empty or its token is rejected) and that call succeeds with `tk2`,
`Token()` returns `(tk2, nil)`, the cache holds `tk2` afterwards in place of
whatever it held, and the underlying source has been called exactly once: its
state is that after one `Token()` call and, when it is a non-defensive source,
the call count of the operation is 1. -/
theorem C6_successful_refresh_returns_and_caches {σ : Type}
    (fetch : σ → time.Time → TokenResult × σ) (new : oauth2.TokenSource σ)
    (t tk2 : Option oauth2.Token) (now : time.Time)
    (hv : valid t now = false) (hok : (new.Token fetch now).1 = ⟨tk2, none⟩) :
    ((oauth2.TokenSource.defensiveReuseTokenSource new t).Token fetch now).1 = ⟨tk2, none⟩
    ∧ ((oauth2.TokenSource.defensiveReuseTokenSource new t).Token fetch now).2.1
        = .defensiveReuseTokenSource (new.Token fetch now).2.1 tk2
    ∧ cached ((oauth2.TokenSource.defensiveReuseTokenSource new t).Token fetch now).2.1 = tk2
    ∧ ((oauth2.TokenSource.defensiveReuseTokenSource new t).Token fetch now).2.2
        = (new.Token fetch now).2.2
    ∧ (∀ s : σ, new = .other s →
        ((oauth2.TokenSource.defensiveReuseTokenSource new t).Token fetch now).2.1
            = .defensiveReuseTokenSource (.other (fetch s now).2) tk2
        ∧ ((oauth2.TokenSource.defensiveReuseTokenSource new t).Token fetch now).2.2 = 1) := by
  have he : (new.Token fetch now).1.err = none := by rw [hok]
  have htk : (new.Token fetch now).1.tok = tk2 := by rw [hok]
  rw [Token_of_invalid_ok fetch new t now hv he, htk]
  refine ⟨rfl, rfl, rfl, rfl, ?_⟩
  intro s hs
  subst hs
  simp only [Token_other, and_self]

/-- C6 (witness): an empty cache over the stub source, at `t0`. -/
theorem C6_successful_refresh_returns_and_caches_witness :
    valid none t0 = false
    ∧ ((oauth2.TokenSource.defensiveReuseTokenSource (.other 0) none).Token
          (stubFetch expiry) t0).1
        = ⟨some ⟨"tok", "Bearer", "", t0 + expiry⟩, none⟩
    ∧ cached ((oauth2.TokenSource.defensiveReuseTokenSource (.other 0) none).Token
          (stubFetch expiry) t0).2.1
        = some ⟨"tok", "Bearer", "", t0 + expiry⟩
    ∧ ((oauth2.TokenSource.defensiveReuseTokenSource (.other 0) none).Token
          (stubFetch expiry) t0).2.2 = 1 :=
  ⟨rfl,
    (C6_successful_refresh_returns_and_caches (stubFetch expiry) (.other 0) none
      (some ⟨"tok", "Bearer", "", t0 + expiry⟩) t0 rfl (by decide)).1,
    (C6_successful_refresh_returns_and_caches (stubFetch expiry) (.other 0) none
      (some ⟨"tok", "Bearer", "", t0 + expiry⟩) t0 rfl (by decide)).2.2.1,
    ((C6_successful_refresh_returns_and_caches (stubFetch expiry) (.other 0) none
      (some ⟨"tok", "Bearer", "", t0 + expiry⟩) t0 rfl (by decide)).2.2.2.2 0 rfl).2⟩

end sharedsecret

/-! ## Theorems: the token codec and the token sources -/

namespace accesstoken

/-- Decoding what `Encode` produced, under a wire format that parses back what
it prints and a key whose `Verify` accepts what its `Sign` produced: the
expired-token error when the verifier's instant is past issuance + ttl, and the
issued actor and claims otherwise. -/
theorem Decode_Encode {W : Type} (c : Codec W) (k : idkey.IDKey)
    (actor : auth.Actor (List String)) (claims : List (String × String))
    (ttl : time.Duration) (now checkedAt : time.Time)
    (hwire : ∀ p sig, c.parse (c.render p sig) = some (p, sig))
    (hsig : ∀ p, c.Verify k p (c.Sign k p) = true) :
    Decode c k checkedAt (Encode c k actor claims ttl now).AccessToken =
      if now + ttl < checkedAt then .error .ExpiredTokenError else .ok (actor, claims) := by
  simp only [Decode, Encode, hwire, hsig]
  simp

/-- The laws of the wire format hold for `pairCodec`. -/
theorem pairCodec_wire (p : Payload) (sig : String) :
    pairCodec.parse (pairCodec.render p sig) = some (p, sig) := rfl

/-- The key `testKey` verifies its own signatures under `pairCodec`. -/
theorem pairCodec_sig (p : Payload) :
    pairCodec.Verify testKey p (pairCodec.Sign testKey p) = true := by
  simp [pairCodec, testKey]

/-- C8: for every key, scope list, extra claims and ttl >= 0, parsing and
verifying the access token of `NewSelfSigned(k, scope, claims, ttl)` under the
same key at the instant of issuance succeeds and returns the actor with the
key's ID and exactly the issued scope, and exactly the issued claims; the wire
format is assumed to parse back what it prints and the key to verify what it
signs. -/
theorem C8_self_signed_round_trip {W : Type} (c : Codec W) (k : idkey.IDKey)
    (scope : List String) (claims : List (String × String)) (ttl : time.Duration)
    (now : time.Time) (httl : 0 ≤ ttl)
    (hwire : ∀ p sig, c.parse (c.render p sig) = some (p, sig))
    (hsig : ∀ p, c.Verify k p (c.Sign k p) = true) :
    ParseAndVerify c k now (NewSelfSigned c k scope claims ttl now).AccessToken
      = .ok (⟨k.ID, scope⟩, claims) := by
  unfold ParseAndVerify NewSelfSigned
  rw [Decode_Encode c k _ claims ttl now now hwire hsig, if_neg]
  intro h
  linarith

/-- C8 (witness): the case of the test, scope = nil, claims = nil, ttl = 0. -/
theorem C8_self_signed_round_trip_witness :
    ParseAndVerify pairCodec testKey sharedsecret.t0
        (NewSelfSigned pairCodec testKey [] [] 0 sharedsecret.t0).AccessToken
      = .ok (⟨"k1", []⟩, []) :=
  C8_self_signed_round_trip pairCodec testKey [] [] 0 sharedsecret.t0 (le_refl 0)
    pairCodec_wire pairCodec_sig

end accesstoken

namespace sharedsecret

/-- C10: for every key and scope list, and whatever the encoders and
`UnmarshalScope` are, `ShortTokenSource(k, scope...).Token()` is
`NewSelfSigned(k, scope, {"GrantType": "ShortSharedSecret"}, expiry)` and
`TokenSource(k, scope...).Token()` is `New(k, Actor{ClientID: k.ID, Scope:
UnmarshalScope(scope)}, {"GrantType": "SharedSecret"}, expiry)`: the scope is
stored and handed on as given, the ttl is the constant `expiry` of three hours,
and the token and the error are the encoder's. -/
theorem C10_sources_hand_scope_on_with_fixed_ttl {Sc : Type}
    (New : idkey.IDKey → auth.Actor Sc → Claims → time.Duration → time.Time → oauth2.TokenResult)
    (NewSelfSigned : idkey.IDKey → List String → Claims → time.Duration → time.Time →
      oauth2.TokenResult)
    (UnmarshalScope : List String → Sc) (k : idkey.IDKey) (scope : List String)
    (now : time.Time) :
    (ShortTokenSource k scope).Token NewSelfSigned now
        = NewSelfSigned k scope [("GrantType", "ShortSharedSecret")] expiry now
    ∧ (TokenSource k scope).Token New UnmarshalScope now
        = New k ⟨k.ID, UnmarshalScope scope⟩ [("GrantType", "SharedSecret")] expiry now
    ∧ (ShortTokenSource k scope).scope = scope
    ∧ (TokenSource k scope).scope = scope
    ∧ expiry = 3 * 3600 * time.Second
    ∧ expiry = 10800000000000
    ∧ ((ShortTokenSource k scope).Token NewSelfSigned now).err
        = (NewSelfSigned k scope [("GrantType", "ShortSharedSecret")] expiry now).err
    ∧ ((TokenSource k scope).Token New UnmarshalScope now).err
        = (New k ⟨k.ID, UnmarshalScope scope⟩ [("GrantType", "SharedSecret")] expiry now).err :=
  ⟨rfl, rfl, rfl, rfl, by decide, by decide, rfl, rfl⟩

end sharedsecret

/-! ## Theorems: constants and the shape of built caches -/

namespace sharedsecret

/-- Every built source is a source of another dynamic type or a cache directly
over one. -/
theorem Built_shape {σ : Type} (fetch : σ → time.Time → oauth2.TokenResult × σ)
    (src : oauth2.TokenSource σ) (h : Built fetch src) :
    (∃ s, src = .other s) ∨ (∃ s t, src = .defensiveReuseTokenSource (.other s) t) := by
  induction h with
  | base s => exact Or.inl ⟨s, rfl⟩
  | wrap t src _ ih =>
    rcases ih with ⟨s, rfl⟩ | ⟨s, t1, rfl⟩
    · exact Or.inr ⟨s, t, rfl⟩
    · cases t with
      | none => exact Or.inr ⟨s, t1, rfl⟩
      | some tk => exact Or.inr ⟨s, some tk, rfl⟩
  | call src now _ ih =>
    rcases ih with ⟨s, rfl⟩ | ⟨s, t1, rfl⟩
    · exact Or.inl ⟨(fetch s now).2, by rw [Token_other]⟩
    · right
      cases hv : valid t1 now
      · cases he : ((oauth2.TokenSource.other s).Token fetch now).1.err with
        | none =>
          rw [Token_of_invalid_ok fetch _ t1 now hv he, Token_other]
          exact ⟨_, _, rfl⟩
        | some e =>
          rw [Token_of_invalid_err fetch _ t1 now e hv he, Token_other]
          exact ⟨_, _, rfl⟩
      · rw [Token_of_valid fetch _ t1 now hv]
        exact ⟨_, _, rfl⟩

/-- C11: `defensiveExpiry` (60 minutes) is strictly less than `expiry` (3 * 60
minutes), `expiry` is strictly greater than oauth2's `expiryDelta` of 10
seconds, and a token whose `Expiry` is the instant of issuance plus `expiry`
has strictly more than `defensiveExpiry` left at that instant. -/
theorem C11_defensiveExpiry_lt_expiry :
    defensiveExpiry < expiry
    ∧ oauth2.expiryDelta < expiry
    ∧ defensiveExpiry = 60 * (60 * 1000000000)
    ∧ expiry = 3 * 60 * (60 * 1000000000)
    ∧ oauth2.expiryDelta = 10 * 1000000000
    ∧ ∀ now : time.Time, defensiveExpiry < (now + expiry) - now := by
  refine ⟨by decide, by decide, by decide, by decide, by decide, ?_⟩
  intro now
  have h : defensiveExpiry < expiry := by decide
  linarith

/-- C17: a source built from sources of other dynamic types by any number of
applications of `DefensiveReuseTokenSource` (with `Token()` calls in between)
is never a cache whose field `new` is again a cache; hence a `Token()` call on
a built cache locks exactly one mutex and calls the underlying source at most
once. -/
theorem C17_built_caches_are_not_nested {σ : Type}
    (fetch : σ → time.Time → oauth2.TokenResult × σ) (src : oauth2.TokenSource σ)
    (h : Built fetch src) :
    src.nested = false
    ∧ (∀ new t, src = .defensiveReuseTokenSource new t → new.isDefensive = false)
    ∧ (∀ now : time.Time, src.isDefensive = true → src.locks now = 1)
    ∧ (∀ now : time.Time, (src.Token fetch now).2.2 ≤ 1) := by
  rcases Built_shape fetch src h with ⟨s, rfl⟩ | ⟨s, t1, rfl⟩
  · refine ⟨rfl, ?_, ?_, ?_⟩
    · intro new t hsrc
      cases hsrc
    · intro now hd
      cases hd
    · intro now
      rw [Token_other]
  · refine ⟨rfl, ?_, ?_, ?_⟩
    · intro new t hsrc
      cases hsrc
      rfl
    · intro now _
      cases hv : valid t1 now <;> simp [oauth2.TokenSource.locks, hv]
    · intro now
      exact Token_single_layer_calls_le_one fetch s t1 now

/-- C17 (witness): the constructor applied twice over the stub source, with a
`Token()` call in between. -/
theorem C17_built_caches_are_not_nested_witness :
    (DefensiveReuseTokenSource (some ⟨"a", "Bearer", "", t0⟩)
        ((DefensiveReuseTokenSource none (.other 0)).Token (stubFetch expiry) t0).2.1).nested
      = false :=
  (C17_built_caches_are_not_nested (stubFetch expiry) _
    (Built.wrap _ _ (Built.call _ t0 (Built.wrap none _ (Built.base 0))))).1

end sharedsecret

/-! ## Theorems: repository frames -/

namespace app

/-- Writing `a` at an index of a list and putting the element that was there in
front rearranges `a` in front of the list. -/
theorem perm_cons_set (a : String) :
    ∀ (l : List String) (j : Nat), j < l.length → (l.getD j "" :: l.set j a).Perm (a :: l) := by
  intro l
  induction l with
  | nil =>
    intro j hj
    simp at hj
  | cons b t ih =>
    intro j hj
    cases j with
    | zero =>
      simp only [List.getD_cons_zero, List.set_cons_zero]
      exact List.Perm.swap a b t
    | succ k =>
      have hk : k < t.length := by simpa using hj
      simp only [List.getD_cons_succ, List.set_cons_succ]
      exact ((List.Perm.swap b (t.getD k "") (t.set k a)).trans
        ((ih k hk).cons b)).trans (List.Perm.swap a b t)

/-- An index holding `"changes"` is inside the list. -/
theorem lt_length_of_getD_changes (ids : List String) (i : Nat)
    (h : ids.getD i "" = "changes") : i < ids.length := by
  by_contra hlt
  rw [List.getD_eq_default _ _ (by omega)] at h
  exact absurd h (by decide)

/-- Exchanging the elements at `0` and `i` rearranges the list. -/
theorem swap_perm (ids : List String) (i : Nat) (h : ids.getD i "" = "changes") :
    ((ids.set 0 (ids.getD i "")).set i (ids.getD 0 "")).Perm ids := by
  have hi := lt_length_of_getD_changes ids i h
  cases ids with
  | nil => simp at hi
  | cons a rest =>
    cases i with
    | zero => simp
    | succ j =>
      have hj : j < rest.length := by simpa using hi
      simp only [List.getD_cons_succ, List.set_cons_zero, List.set_cons_succ,
        List.getD_cons_zero]
      exact perm_cons_set a rest j hj

/-- After the exchange the list starts with `"changes"`. -/
theorem swap_head (ids : List String) (i : Nat) (h : ids.getD i "" = "changes") :
    ((ids.set 0 (ids.getD i "")).set i (ids.getD 0 "")).head? = some "changes" := by
  have hi := lt_length_of_getD_changes ids i h
  cases ids with
  | nil => simp at hi
  | cons a rest =>
    cases i with
    | zero =>
      simp only [List.getD_cons_zero] at h
      simp [h]
    | succ j =>
      simp only [List.getD_cons_succ] at h
      simp only [List.getD_cons_succ, List.set_cons_zero, List.set_cons_succ,
        List.head?_cons, h]

/-- The loop rearranges the list. -/
theorem changesFirst_perm : ∀ (n i : Nat) (ids : List String), (changesFirst n i ids).Perm ids := by
  intro n
  induction n with
  | zero =>
    intro i ids
    exact List.Perm.refl _
  | succ n ih =>
    intro i ids
    unfold changesFirst
    by_cases h : ids.getD i "" = "changes"
    · rw [if_pos h]
      exact (ih _ _).trans (swap_perm ids i h)
    · rw [if_neg h]
      exact ih _ _

/-- A list that starts with `"changes"` still does after the loop. -/
theorem changesFirst_head_of_head : ∀ (n i : Nat) (ids : List String),
    ids.head? = some "changes" → (changesFirst n i ids).head? = some "changes" := by
  intro n
  induction n with
  | zero =>
    intro i ids h
    exact h
  | succ n ih =>
    intro i ids h
    unfold changesFirst
    by_cases hc : ids.getD i "" = "changes"
    · rw [if_pos hc]
      exact ih _ _ (swap_head ids i hc)
    · rw [if_neg hc]
      exact ih _ _ h

/-- If an index the loop has yet to visit holds `"changes"`, the list starts
with `"changes"` after the loop. -/
theorem changesFirst_head : ∀ (n i : Nat) (ids : List String) (j : Nat),
    i ≤ j → j < i + n → ids.getD j "" = "changes" →
    (changesFirst n i ids).head? = some "changes" := by
  intro n
  induction n with
  | zero =>
    intro i ids j hij hjn _
    omega
  | succ n ih =>
    intro i ids j hij hjn hj
    unfold changesFirst
    by_cases hc : ids.getD i "" = "changes"
    · rw [if_pos hc]
      exact changesFirst_head_of_head _ _ _ (swap_head ids i hc)
    · rw [if_neg hc]
      have hne : i ≠ j := by
        intro h
        rw [h] at hc
        exact hc hj
      exact ih (i + 1) ids j (by omega) (by omega) hj

/-- The enable test of the loop over `platform.Frames()`, written out: the
frame's ID is `"changes"`, or the repo config enables the ID, or the frame has
an `Enable` function that holds of the repo. -/
theorem frameEnabled_eq {Repo : Type} (IsAppEnabled : String → Bool) (repo : Repo)
    (frame : platform.RepoFrame Repo) :
    frameEnabled IsAppEnabled repo frame
      = (decide (frame.ID = "changes") || IsAppEnabled frame.ID
          || (frame.Enable.map (fun enable => enable repo) == some true)) := by
  unfold frameEnabled isAlwaysEnabledApp
  cases frame.Enable with
  | none => simp
  | some enable => cases h : enable repo <;> simp [h]

/-- C13: with apps not disabled, let the frames that pass the enable test be
the registered frames whose ID is `"changes"`, or whose ID the repo config
enables, or whose `Enable` function is set and holds of the repo.  If
`"changes"` is among the IDs of those frames, the returned `orderedIDs` start
with `"changes"`; and `orderedIDs` is a rearrangement of the IDs of those
frames, one entry for each frame that passes and none for a frame that
fails. -/
theorem C13_changes_is_first {Repo : Type} (Frames : List (platform.RepoFrame Repo))
    (IsAppEnabled : String → Bool) (repo : Repo)
    (h : "changes" ∈ (Frames.filter (fun frame =>
        decide (frame.ID = "changes") || IsAppEnabled frame.ID
          || (frame.Enable.map (fun enable => enable repo) == some true))).map
        (fun frame => frame.ID)) :
    (orderedRepoEnabledFrames false Frames IsAppEnabled repo).2.head? = some "changes"
    ∧ ((orderedRepoEnabledFrames false Frames IsAppEnabled repo).2).Perm
        ((Frames.filter (fun frame =>
          decide (frame.ID = "changes") || IsAppEnabled frame.ID
            || (frame.Enable.map (fun enable => enable repo) == some true))).map
          (fun frame => frame.ID))
    ∧ (∀ appID ∈ (orderedRepoEnabledFrames false Frames IsAppEnabled repo).2,
        ∃ frame ∈ Frames, frame.ID = appID
          ∧ (frame.ID = "changes" ∨ IsAppEnabled frame.ID = true
              ∨ ∃ enable, frame.Enable = some enable ∧ enable repo = true)) := by
  have hfilter : (Frames.filter (fun frame =>
        decide (frame.ID = "changes") || IsAppEnabled frame.ID
          || (frame.Enable.map (fun enable => enable repo) == some true))).map
        (fun frame => frame.ID) = enabledIDs Frames IsAppEnabled repo := by
    unfold enabledIDs
    congr 1
    apply List.filter_congr
    intro frame _
    exact (frameEnabled_eq IsAppEnabled repo frame).symm
  have hsort : (sort.Strings (enabledIDs Frames IsAppEnabled repo)).Perm
      (enabledIDs Frames IsAppEnabled repo) := List.perm_insertionSort _ _
  have hmem : "changes" ∈ sort.Strings (enabledIDs Frames IsAppEnabled repo) :=
    hsort.symm.subset (hfilter ▸ h)
  obtain ⟨j, hj, hget⟩ := List.getElem_of_mem hmem
  have hgetD : (sort.Strings (enabledIDs Frames IsAppEnabled repo)).getD j "" = "changes" := by
    rw [List.getD_eq_getElem _ _ hj, hget]
  have hout : (orderedRepoEnabledFrames false Frames IsAppEnabled repo).2
      = changesFirst (sort.Strings (enabledIDs Frames IsAppEnabled repo)).length 0
          (sort.Strings (enabledIDs Frames IsAppEnabled repo)) := rfl
  have hperm : ((orderedRepoEnabledFrames false Frames IsAppEnabled repo).2).Perm
      (enabledIDs Frames IsAppEnabled repo) := by
    rw [hout]
    exact (changesFirst_perm _ _ _).trans hsort
  refine ⟨?_, ?_, ?_⟩
  · rw [hout]
    exact changesFirst_head _ 0 _ j (Nat.zero_le j) (by omega) hgetD
  · rw [hfilter]
    exact hperm
  · intro appID happ
    have hin := hperm.subset happ
    rw [← hfilter] at hin
    obtain ⟨frame, hframe, hid⟩ := List.mem_map.mp hin
    obtain ⟨hF, htest⟩ := List.mem_filter.mp hframe
    refine ⟨frame, hF, hid, ?_⟩
    simp only [Bool.or_eq_true, decide_eq_true_eq, beq_iff_eq] at htest
    rcases htest with (h1 | h2) | h3
    · exact Or.inl h1
    · exact Or.inr (Or.inl h2)
    · right
      right
      cases hE : frame.Enable with
      | none =>
        rw [hE] at h3
        simp at h3
      | some enable =>
        rw [hE] at h3
        simp only [Option.map_some', Option.some.injEq] at h3
        exact ⟨enable, rfl, h3⟩

/-- C13 (witness): three registered frames without an `Enable` function, of
which the repo config enables `"builds"` only: `"apps"` fails the test. -/
theorem C13_changes_is_first_witness :
    (orderedRepoEnabledFrames false sampleFrames (fun appID => decide (appID = "builds"))
        ()).2.head? = some "changes"
    ∧ ((orderedRepoEnabledFrames false sampleFrames (fun appID => decide (appID = "builds"))
        ()).2).Perm ["builds", "changes"] :=
  ⟨(C13_changes_is_first sampleFrames (fun appID => decide (appID = "builds")) ()
      (by decide)).1,
    (C13_changes_is_first sampleFrames (fun appID => decide (appID = "builds")) ()
      (by decide)).2.1⟩

/-- C14 (the code at the failing input): with the frames `"builds"`,
`"changes"` and `"apps"` enabled, the sorted IDs are `apps, builds, changes` and
the exchange of the first element with `"changes"` returns `changes, builds,
apps`: the IDs other than `"changes"` are `builds, apps`, not in ascending
order, since `"apps" < "builds"`. -/
theorem C14_exchange_breaks_alphabetical_order :
    sort.Strings (enabledIDs sampleFrames (fun _ => true) ()) = ["apps", "builds", "changes"]
    ∧ (orderedRepoEnabledFrames false sampleFrames (fun _ => true) ()).2
        = ["changes", "builds", "apps"]
    ∧ ((orderedRepoEnabledFrames false sampleFrames (fun _ => true) ()).2.filter
        (fun appID => decide (appID ≠ "changes"))) = ["builds", "apps"]
    ∧ sort.Less "apps" "builds" = true := by
  decide

/-- C15: for an app response that is neither verbatim nor a redirect, whose
status is not 200 and that is not the unauthorized response with no user: when
the request is not in debug mode the template gets no app HTML and, as
`AppError`, the fixed public-facing error, whatever the body of the response
is; in debug mode `AppError` is the error made of the body. -/
theorem C15_public_error_outside_debug (code : Nat) (verbatim body : String)
    (user : Option String) (debug : Bool)
    (hverbatim : verbatim ≠ "true")
    (hredirect : ¬ (code = 303 ∨ code = 301 ∨ code = 307 ∨ code = 302))
    (hstatus : code ≠ 200) (hunauth : ¬ (code = 401 ∧ user = none)) :
    (debug = false →
        serveRepoFrame code verbatim body user debug
          = .rendered "" (some errPlatformAppPublicFacingFatalError))
    ∧ (debug = false → ∀ body2 : String,
        serveRepoFrame code verbatim body2 user debug
          = serveRepoFrame code verbatim body user debug)
    ∧ (debug = true →
        serveRepoFrame code verbatim body user debug = .rendered "" (some body)) := by
  have hgate : ¬ (verbatim = "true" ∨ (code = 303 ∨ code = 301 ∨ code = 307 ∨ code = 302)) := by
    rintro (h | h)
    · exact hverbatim h
    · exact hredirect h
  have hpub : ∀ b : String, debug = false →
      serveRepoFrame code verbatim b user debug
        = .rendered "" (some errPlatformAppPublicFacingFatalError) := by
    intro b hd
    subst hd
    simp only [serveRepoFrame, if_neg hgate, if_neg hstatus, if_neg hunauth, if_true]
  refine ⟨hpub body, ?_, ?_⟩
  · intro hd body2
    rw [hpub body2 hd, hpub body hd]
  · intro hd
    subst hd
    simp [serveRepoFrame, if_neg hgate, if_neg hstatus, if_neg hunauth]

/-- C15 (witness): a response with status 500 and body `boom`, no user,
outside debug mode. -/
theorem C15_public_error_outside_debug_witness :
    serveRepoFrame 500 "" "boom" none false
      = .rendered "" (some errPlatformAppPublicFacingFatalError) :=
  (C15_public_error_outside_debug 500 "" "boom" none false (by decide) (by decide)
    (by decide) (by decide)).1 rfl

end app

/-! ## Theorems: the build log store -/

namespace fs

/-- A string other than the empty one has a length other than 0. -/
theorem length_ne_zero_of_ne_empty (b : String) (hb : b ≠ "") : ¬ b.length = 0 := by
  intro h
  apply hb
  cases b with
  | mk data =>
    have hd : data = [] := List.length_eq_zero.mp h
    rw [hd]

/-- The clamped index is in range, and the slice is what is left after it. -/
theorem sliceFrom_clamped {α : Type} (s : List α) (i : Int) :
    sliceFrom s (if i < 0 then 0 else if (s.length : Int) < i then s.length else i)
      = some (s.drop (max 0 (min i s.length)).toNat) := by
  unfold sliceFrom
  by_cases h1 : i < 0
  · have hm : max 0 (min i (s.length : Int)) = 0 := by
      rw [min_eq_left (by omega)]
      exact max_eq_left (by omega)
    simp [h1, hm]
  · by_cases h2 : (s.length : Int) < i
    · have hm : max 0 (min i (s.length : Int)) = s.length := by
        rw [min_eq_right (by omega)]
        exact max_eq_right (by omega)
      simp [h1, h2, hm]
    · have hm : max 0 (min i (s.length : Int)) = i := by
        rw [min_eq_left (by omega)]
        exact max_eq_right (by omega)
      have h3 : 0 ≤ i := by omega
      have h4 : i ≤ s.length := by omega
      simp [h1, h2, hm, h3, h4]

/-- What `Get` returns on a non-empty log file, by the result of `Atoi`. -/
theorem Get_content (b minIDStr : String) (hb : b ≠ "") :
    Get none (.content b) minIDStr =
      if minIDStr ≠ "" ∧ (strconv.Atoi minIDStr).2 ≠ none then
        .error ((strconv.Atoi minIDStr).2.getD "")
      else
        .value ⟨(strings.Split b '\n').drop
            (max 0 (min (strconv.Atoi minIDStr).1 (strings.Split b '\n').length)).toNat,
          strconv.Itoa ((strings.Split b '\n').length - 1)⟩ := by
  have hlen := length_ne_zero_of_ne_empty b hb
  unfold Get
  simp only [if_neg hlen]
  rcases hA : strconv.Atoi minIDStr with ⟨minID, err⟩
  cases err with
  | none => simp [sliceFrom_clamped]
  | some e =>
    by_cases hs : minIDStr = ""
    · simp [hs, sliceFrom_clamped]
    · simp [hs]

/-- C16: with read access granted and a non-empty log file, split into `lines`
on newlines: `Get` fails exactly when `minIDStr` is non-empty and `Atoi`
rejects it; otherwise it returns `Entries = lines[m:]`, where `m` is the value
of `Atoi` (0 for the empty string) clamped into `[0, len(lines)]`, so that the
slice is never out of range and has `len(lines) - m` elements, and `MaxID` is
the decimal string of `len(lines) - 1`.  An empty or missing file gives empty
`LogEntries` and no error. -/
theorem C16_Get_slices_from_clamped_minID (b minIDStr : String) (hb : b ≠ "") :
    ((∃ e, Get none (.content b) minIDStr = .error e)
        ↔ (minIDStr ≠ "" ∧ (strconv.Atoi minIDStr).2 ≠ none))
    ∧ (¬ (minIDStr ≠ "" ∧ (strconv.Atoi minIDStr).2 ≠ none) →
        Get none (.content b) minIDStr
          = .value ⟨(strings.Split b '\n').drop
              (max 0 (min (strconv.Atoi minIDStr).1 (strings.Split b '\n').length)).toNat,
            strconv.Itoa ((strings.Split b '\n').length - 1)⟩)
    ∧ (max 0 (min (strconv.Atoi minIDStr).1 (strings.Split b '\n').length)).toNat
        ≤ (strings.Split b '\n').length
    ∧ ((strings.Split b '\n').drop
          (max 0 (min (strconv.Atoi minIDStr).1 (strings.Split b '\n').length)).toNat).length
        = (strings.Split b '\n').length
          - (max 0 (min (strconv.Atoi minIDStr).1 (strings.Split b '\n').length)).toNat
    ∧ Get none (.content b) minIDStr ≠ .panic
    ∧ (strconv.Atoi "").1 = 0
    ∧ Get none (.content "") minIDStr = .value ⟨[], ""⟩
    ∧ Get none .notExist minIDStr = .value ⟨[], ""⟩ := by
  have hG := Get_content b minIDStr hb
  refine ⟨?_, ?_, ?_, ?_, ?_, rfl, rfl, rfl⟩
  · by_cases hbad : minIDStr ≠ "" ∧ (strconv.Atoi minIDStr).2 ≠ none
    · rw [hG, if_pos hbad]
      exact ⟨fun _ => hbad, fun _ => ⟨_, rfl⟩⟩
    · rw [hG, if_neg hbad]
      constructor
      · rintro ⟨e, he⟩
        cases he
      · intro h
        exact absurd h hbad
  · intro hgood
    rw [hG, if_neg hgood]
  · omega
  · rw [List.length_drop]
  · rw [hG]
    by_cases hbad : minIDStr ≠ "" ∧ (strconv.Atoi minIDStr).2 ≠ none
    · rw [if_pos hbad]
      intro h
      cases h
    · rw [if_neg hbad]
      intro h
      cases h

/-- C16 (witness): a log of three lines read from line 1 on. -/
theorem C16_Get_slices_from_clamped_minID_witness :
    Get none (.content "l0\nl1\nl2") "1" = .value ⟨["l1", "l2"], "2"⟩
    ∧ Get none (.content "l0\nl1\nl2") "-7" = .value ⟨["l0", "l1", "l2"], "2"⟩
    ∧ Get none (.content "l0\nl1\nl2") "99" = .value ⟨[], "2"⟩
    ∧ Get none (.content "l0\nl1\nl2") "" = .value ⟨["l0", "l1", "l2"], "2"⟩
    ∧ Get none (.content "l0\nl1\nl2") "x" ≠ .panic :=
  ⟨by decide, by decide, by decide, by decide,
    (C16_Get_slices_from_clamped_minID "l0\nl1\nl2" "x" (by decide)).2.2.2.2.1⟩

end fs

/-! ## Theorems: `path.Clean` and the log file path -/

namespace path

/-- Joining no elements. -/
theorem intercalate_nil_eq {α : Type} (sep : List α) : List.intercalate sep [] = [] := by
  simp [List.intercalate]

/-- Joining one element. -/
theorem intercalate_single {α : Type} (sep x : List α) : List.intercalate sep [x] = x := by
  simp [List.intercalate]

/-- Joining two or more elements. -/
theorem intercalate_cons_cons {α : Type} (sep x y : List α) (l : List (List α)) :
    List.intercalate sep (x :: y :: l) = x ++ sep ++ List.intercalate sep (y :: l) := by
  simp [List.intercalate]

/-- Joining an element in front of a non-empty list of elements. -/
theorem intercalate_cons_of_ne_nil {α : Type} (sep x : List α) (l : List (List α))
    (hl : l ≠ []) : List.intercalate sep (x :: l) = x ++ sep ++ List.intercalate sep l := by
  cases l with
  | nil => exact absurd rfl hl
  | cons y t => exact intercalate_cons_cons sep x y t

/-- Joining two non-empty lists of elements. -/
theorem intercalate_append_of_ne_nil {α : Type} (sep : List α) :
    ∀ (a b : List (List α)), a ≠ [] → b ≠ [] →
      List.intercalate sep (a ++ b) = List.intercalate sep a ++ sep ++ List.intercalate sep b := by
  intro a
  induction a with
  | nil =>
    intro b ha _
    exact absurd rfl ha
  | cons x t ih =>
    intro b _ hb
    cases t with
    | nil =>
      rw [intercalate_single]
      exact intercalate_cons_of_ne_nil sep x b hb
    | cons y t2 =>
      have h1 : (x :: y :: t2) ++ b = x :: ((y :: t2) ++ b) := rfl
      rw [h1, intercalate_cons_of_ne_nil sep x _ (by simp), ih b (by simp) hb,
        intercalate_cons_cons]
      simp [List.append_assoc]

/-- An iteration of the loop leaves no more to read than what followed the
byte it started at. -/
theorem cleanStep_length_le (rooted : Bool) (c : Char) (rest out : List Char) (dotdot : Nat) :
    (cleanStep rooted c rest out dotdot).1.length ≤ rest.length := by
  unfold cleanStep
  by_cases h1 : c = '/'
  · simp [h1]
  · rw [if_neg h1]
    by_cases h2 : c = '.' ∧ (rest = [] ∨ rest.head? = some '/')
    · rw [if_pos h2]
    · rw [if_neg h2]
      by_cases h3 : c = '.' ∧ rest.head? = some '.' ∧ (rest.tail = [] ∨ rest.tail.head? = some '/')
      · rw [if_pos h3]
        have ht : rest.tail.length ≤ rest.length := by simp
        split_ifs <;> exact ht
      · rw [if_neg h3]
        have hc : (c :: rest).dropWhile (fun x => decide (x ≠ '/'))
            = rest.dropWhile (fun x => decide (x ≠ '/')) := by
          simp [List.dropWhile_cons, h1]
        show ((c :: rest).dropWhile (fun x => decide (x ≠ '/'))).length ≤ rest.length
        rw [hc]
        exact (List.dropWhile_suffix _).length_le

/-- The loop does not depend on the bound of its iterations once the bound is
at least the number of bytes left to read. -/
theorem cleanLoop_fuel (rooted : Bool) : ∀ (n fuel : Nat) (rest out : List Char) (dotdot : Nat),
    rest.length ≤ n → rest.length ≤ fuel →
    cleanLoop rooted fuel rest out dotdot = cleanFrom rooted rest out dotdot := by
  intro n
  induction n with
  | zero =>
    intro fuel rest out dotdot hn _
    have hr : rest = [] := List.length_eq_zero.mp (Nat.le_zero.mp hn)
    subst hr
    cases fuel <;> rfl
  | succ n ih =>
    intro fuel rest out dotdot hn hf
    cases rest with
    | nil => cases fuel <;> rfl
    | cons c r =>
      have hr : r.length ≤ n := by simpa using hn
      cases fuel with
      | zero => simp at hf
      | succ f =>
        have hrf : r.length ≤ f := by simpa using hf
        have hstep := cleanStep_length_le rooted c r out dotdot
        show cleanLoop rooted f (cleanStep rooted c r out dotdot).1 _ _
            = cleanLoop rooted r.length (cleanStep rooted c r out dotdot).1 _ _
        rw [ih f _ _ _ (le_trans hstep hr) (le_trans hstep hrf),
          ih r.length _ _ _ (le_trans hstep hr) hstep]

/-- The loop on nothing left to read. -/
theorem cleanFrom_nil (rooted : Bool) (out : List Char) (dotdot : Nat) :
    cleanFrom rooted [] out dotdot = (out, dotdot) := rfl

/-- The loop on a byte followed by `rest`: one iteration, then the loop on what
is left. -/
theorem cleanFrom_cons (rooted : Bool) (c : Char) (rest out : List Char) (dotdot : Nat) :
    cleanFrom rooted (c :: rest) out dotdot
      = cleanFrom rooted (cleanStep rooted c rest out dotdot).1
          (cleanStep rooted c rest out dotdot).2.1 (cleanStep rooted c rest out dotdot).2.2 := by
  have hstep := cleanStep_length_le rooted c rest out dotdot
  show cleanLoop rooted rest.length (cleanStep rooted c rest out dotdot).1 _ _ = _
  exact cleanLoop_fuel rooted rest.length _ _ _ _ hstep hstep

/-- Before the end of the path or a `/`, `takeWhile` up to a `/` does not look
past the part in front. -/
theorem takeWhile_append_boundary (l tail : List Char)
    (ht : tail = [] ∨ tail.head? = some '/') :
    (l ++ tail).takeWhile (fun x => decide (x ≠ '/'))
      = l.takeWhile (fun x => decide (x ≠ '/')) := by
  induction l with
  | nil =>
    rcases ht with h | h
    · simp [h]
    · cases tail with
      | nil => simp
      | cons x t =>
        simp only [List.head?_cons, Option.some.injEq] at h
        simp [List.takeWhile_cons, h]
  | cons x t ih =>
    simp only [List.cons_append, List.takeWhile_cons, ih]

/-- Before the end of the path or a `/`, `dropWhile` up to a `/` stops in the
part in front or right after it. -/
theorem dropWhile_append_boundary (l tail : List Char)
    (ht : tail = [] ∨ tail.head? = some '/') :
    (l ++ tail).dropWhile (fun x => decide (x ≠ '/'))
      = l.dropWhile (fun x => decide (x ≠ '/')) ++ tail := by
  induction l with
  | nil =>
    rcases ht with h | h
    · simp [h]
    · cases tail with
      | nil => simp
      | cons x t =>
        simp only [List.head?_cons, Option.some.injEq] at h
        simp [List.dropWhile_cons, h]
  | cons x t ih =>
    simp only [List.cons_append, List.dropWhile_cons, ih]
    split_ifs <;> rfl

/-- Whether an element ends right here does not depend on what follows a
boundary. -/
theorem boundary_append_iff (rest tail : List Char)
    (ht : tail = [] ∨ tail.head? = some '/') :
    (rest ++ tail = [] ∨ (rest ++ tail).head? = some '/')
      ↔ (rest = [] ∨ rest.head? = some '/') := by
  cases rest with
  | nil => simp [ht]
  | cons x r => simp

/-- One iteration of the loop in front of a boundary (the end of the path or a
`/`) does not depend on what follows the boundary. -/
theorem cleanStep_append (rooted : Bool) (c : Char) (rest tail out : List Char) (dotdot : Nat)
    (ht : tail = [] ∨ tail.head? = some '/') :
    cleanStep rooted c (rest ++ tail) out dotdot
      = ((cleanStep rooted c rest out dotdot).1 ++ tail,
          (cleanStep rooted c rest out dotdot).2.1, (cleanStep rooted c rest out dotdot).2.2) := by
  have hb := boundary_append_iff rest tail ht
  unfold cleanStep
  by_cases h1 : c = '/'
  · simp only [if_pos h1]
  · simp only [if_neg h1]
    by_cases h2 : c = '.' ∧ (rest = [] ∨ rest.head? = some '/')
    · have h2' : c = '.' ∧ (rest ++ tail = [] ∨ (rest ++ tail).head? = some '/') :=
        ⟨h2.1, hb.mpr h2.2⟩
      simp only [if_pos h2, if_pos h2']
    · have h2' : ¬ (c = '.' ∧ (rest ++ tail = [] ∨ (rest ++ tail).head? = some '/')) :=
        fun h => h2 ⟨h.1, hb.mp h.2⟩
      simp only [if_neg h2, if_neg h2']
      cases rest with
      | nil =>
        have h3 : ¬ (c = '.' ∧ ([] : List Char).head? = some '.'
            ∧ (([] : List Char).tail = [] ∨ ([] : List Char).tail.head? = some '/')) := by
          simp
        have h3' : ¬ (c = '.' ∧ ([] ++ tail).head? = some '.'
            ∧ (([] ++ tail).tail = [] ∨ ([] ++ tail).tail.head? = some '/')) := by
          rintro ⟨_, hh, _⟩
          rcases ht with h | h
          · simp [h] at hh
          · simp only [List.nil_append] at hh
            rw [h] at hh
            simp at hh
        simp only [if_neg h3, if_neg h3']
        have hcons : c :: ([] ++ tail) = [c] ++ tail := rfl
        rw [hcons, takeWhile_append_boundary [c] tail ht, dropWhile_append_boundary [c] tail ht]
      | cons x r =>
        have hb2 := boundary_append_iff r tail ht
        by_cases h3 : c = '.' ∧ (x :: r).head? = some '.'
            ∧ ((x :: r).tail = [] ∨ (x :: r).tail.head? = some '/')
        · have h3' : c = '.' ∧ (x :: r ++ tail).head? = some '.'
              ∧ ((x :: r ++ tail).tail = [] ∨ (x :: r ++ tail).tail.head? = some '/') :=
            ⟨h3.1, h3.2.1, hb2.mpr h3.2.2⟩
          simp only [if_pos h3, if_pos h3']
          have htl : (x :: r ++ tail).tail = (x :: r).tail ++ tail := rfl
          rw [htl]
          split_ifs <;> rfl
        · have h3' : ¬ (c = '.' ∧ (x :: r ++ tail).head? = some '.'
              ∧ ((x :: r ++ tail).tail = [] ∨ (x :: r ++ tail).tail.head? = some '/')) :=
            fun h => h3 ⟨h.1, h.2.1, hb2.mp h.2.2⟩
          simp only [if_neg h3, if_neg h3']
          have hcons : c :: (x :: r ++ tail) = (c :: x :: r) ++ tail := rfl
          rw [hcons, takeWhile_append_boundary (c :: x :: r) tail ht,
            dropWhile_append_boundary (c :: x :: r) tail ht]

/-- The loop on a path cut at a boundary: the loop on the part in front, then
the loop on the rest from where that left `out` and `dotdot`. -/
theorem cleanFrom_append (rooted : Bool) (tail : List Char)
    (ht : tail = [] ∨ tail.head? = some '/') :
    ∀ (n : Nat) (front out : List Char) (dotdot : Nat), front.length ≤ n →
      cleanFrom rooted (front ++ tail) out dotdot
        = cleanFrom rooted tail (cleanFrom rooted front out dotdot).1
            (cleanFrom rooted front out dotdot).2 := by
  intro n
  induction n with
  | zero =>
    intro front out dotdot hn
    have hf : front = [] := List.length_eq_zero.mp (Nat.le_zero.mp hn)
    subst hf
    rfl
  | succ n ih =>
    intro front out dotdot hn
    cases front with
    | nil => rfl
    | cons c r =>
      have hr : r.length ≤ n := by simpa using hn
      have hstep := cleanStep_length_le rooted c r out dotdot
      have hcons : c :: r ++ tail = c :: (r ++ tail) := rfl
      rw [hcons, cleanFrom_cons, cleanStep_append rooted c r tail out dotdot ht, cleanFrom_cons]
      exact ih _ _ _ (le_trans hstep hr)

/-- The loop skips a `/`. -/
theorem cleanFrom_slash (rooted : Bool) (rest out : List Char) (dotdot : Nat) :
    cleanFrom rooted ('/' :: rest) out dotdot = cleanFrom rooted rest out dotdot := by
  rw [cleanFrom_cons]
  simp [cleanStep]

/-- The loop on a single kept element appends it to `out`, after a `/` unless
`out` is empty or the root. -/
theorem cleanFrom_elem (rooted : Bool) (s out : List Char) (dotdot : Nat) (hs : IsElem s) :
    cleanFrom rooted s out dotdot
      = ((if (rooted = true ∧ out.length ≠ 1) ∨ (rooted = false ∧ out.length ≠ 0)
            then out ++ ['/'] else out) ++ s, dotdot) := by
  obtain ⟨hne, hslash, hdot, hdotdot⟩ := hs
  cases s with
  | nil => exact absurd rfl hne
  | cons c r =>
    have hc : c ≠ '/' := fun h => hslash (by simp [h])
    have hr : '/' ∉ r := fun h => hslash (List.mem_cons_of_mem c h)
    have h2 : ¬ (c = '.' ∧ (r = [] ∨ r.head? = some '/')) := by
      rintro ⟨hcd, h | h⟩
      · exact hdot (by rw [hcd, h])
      · cases r with
        | nil => simp at h
        | cons x t =>
          simp only [List.head?_cons, Option.some.injEq] at h
          exact hr (by simp [h])
    have h3 : ¬ (c = '.' ∧ r.head? = some '.' ∧ (r.tail = [] ∨ r.tail.head? = some '/')) := by
      rintro ⟨hcd, hh, ht⟩
      cases r with
      | nil => simp at hh
      | cons x t =>
        simp only [List.head?_cons, Option.some.injEq] at hh
        rcases ht with h | h
        · simp only [List.tail_cons] at h
          exact hdotdot (by rw [hcd, hh, h])
        · cases t with
          | nil => simp at h
          | cons y u =>
            simp only [List.tail_cons, List.head?_cons, Option.some.injEq] at h
            exact hr (by simp [h])
    have hall : ∀ x ∈ c :: r, (fun x => decide (x ≠ '/')) x = true := by
      intro x hx
      have : x ≠ '/' := fun h => hslash (h ▸ hx)
      simpa using this
    have htake : (c :: r).takeWhile (fun x => decide (x ≠ '/')) = c :: r :=
      List.takeWhile_eq_self_iff.mpr hall
    have hdrop : (c :: r).dropWhile (fun x => decide (x ≠ '/')) = [] :=
      List.dropWhile_eq_nil_iff.mpr hall
    rw [cleanFrom_cons]
    simp only [cleanStep, if_neg hc, if_neg h2, if_neg h3, htake, hdrop, cleanFrom_nil]

end path

namespace path

/-- The inner loop on `..` goes down over bytes other than `/` and stops at
`m`, where it meets a `/` or reaches `dotdot`. -/
theorem backtrack_spec (buf : List Char) (dotdot m : Nat) :
    ∀ j : Nat, (∀ i, m < i → i ≤ m + j → buf.getD i '/' ≠ '/') → dotdot ≤ m →
      (m = dotdot ∨ buf.getD m '/' = '/') → backtrack buf dotdot (m + j) = m := by
  intro j
  induction j with
  | zero =>
    intro _ hdd hm
    cases m with
    | zero => rfl
    | succ w =>
      show (if dotdot < w + 1 ∧ buf.getD (w + 1) '/' ≠ '/' then backtrack buf dotdot w
        else w + 1) = w + 1
      rw [if_neg]
      rintro ⟨hlt, hne⟩
      rcases hm with h | h
      · omega
      · exact hne h
  | succ j ih =>
    intro hbytes hdd hm
    show (if dotdot < m + j + 1 ∧ buf.getD (m + j + 1) '/' ≠ '/' then
      backtrack buf dotdot (m + j) else m + j + 1) = m
    rw [if_pos ⟨by omega, hbytes (m + j + 1) (by omega) (by omega)⟩]
    exact ih (fun i h1 h2 => hbytes i h1 (by omega)) hdd hm

/-- A byte of a list read with a default. -/
theorem getD_mem (s : List Char) (i : Nat) (h : i < s.length) : s.getD i '/' ∈ s := by
  rw [List.getD_eq_getElem _ _ h]
  exact List.getElem_mem h

/-- On `front ++ "/" ++ s` with no `/` in `s`, the inner loop on `..` started at
the last byte stops at the `/`. -/
theorem backtrack_after_slash (front s : List Char) (dotdot : Nat) (hs : '/' ∉ s)
    (hdd : dotdot ≤ front.length) :
    backtrack (front ++ '/' :: s) dotdot ((front ++ '/' :: s).length - 1) = front.length := by
  have hlen : (front ++ '/' :: s).length - 1 = front.length + s.length := by
    simp
  rw [hlen]
  apply backtrack_spec _ _ _ _ _ hdd
  · right
    rw [List.getD_append_right _ _ _ _ (le_refl _)]
    simp
  · intro i h1 h2
    rw [List.getD_append_right _ _ _ _ (by omega)]
    obtain ⟨d, hd⟩ : ∃ d, i - front.length = d + 1 := ⟨i - front.length - 1, by omega⟩
    rw [hd, List.getD_cons_succ]
    intro heq
    exact hs (heq ▸ getD_mem s d (by omega))

/-- On `front ++ s` with no `/` in `s` and `dotdot` at the end of `front`, the
inner loop on `..` started at the last byte stops at `dotdot`. -/
theorem backtrack_to_dotdot (front s : List Char) (hs : '/' ∉ s) (hne : s ≠ []) :
    backtrack (front ++ s) front.length ((front ++ s).length - 1) = front.length := by
  have hpos : 0 < s.length := List.length_pos.mpr hne
  have hlen : (front ++ s).length - 1 = front.length + (s.length - 1) := by
    rw [List.length_append]
    omega
  rw [hlen]
  apply backtrack_spec _ _ _ _ _ (le_refl _) (Or.inl rfl)
  intro i h1 h2
  rw [List.getD_append_right _ _ _ _ (by omega)]
  intro heq
  exact hs (heq ▸ getD_mem s (i - front.length) (by omega))

end path

namespace path

/-- Joined non-empty elements are empty only when there is none. -/
theorem intercalate_eq_nil_iff (l : List (List Char)) (h : ∀ s ∈ l, s ≠ []) :
    List.intercalate ['/'] l = [] ↔ l = [] := by
  constructor
  · intro hj
    cases l with
    | nil => rfl
    | cons x t =>
      exfalso
      have hx : x ≠ [] := h x (by simp)
      cases t with
      | nil =>
        rw [intercalate_single] at hj
        exact hx hj
      | cons y u =>
        rw [intercalate_cons_cons] at hj
        simp at hj
  · intro hl
    rw [hl]
    exact intercalate_nil_eq _

/-- The leading `..` elements and the kept elements are all non-empty. -/
theorem shape_elems_ne_nil (k : Nat) (segs : List (List Char)) (hsegs : ∀ s ∈ segs, IsElem s) :
    ∀ s ∈ List.replicate k ['.', '.'] ++ segs, s ≠ [] := by
  intro s hs
  rcases List.mem_append.mp hs with h | h
  · rw [(List.mem_replicate.mp h).2]
    simp
  · exact (hsegs s h).1

/-- The start of the loop has the shape of no elements. -/
theorem Shape_init (rooted : Bool) :
    Shape rooted 0 [] (if rooted then ['/'] else []) (if rooted then 1 else 0) := by
  refine ⟨?_, fun _ => rfl, ?_, ?_⟩
  · intro s hs
    simp at hs
  · simp [intercalate_nil_eq]
  · simp [intercalate_nil_eq]

/-- In a state of the loop, the test for writing a `/` before a real element is
the test that some element has been written. -/
theorem Shape_slashed {rooted : Bool} {k : Nat} {segs : List (List Char)} {out : List Char}
    {dotdot : Nat} (h : Shape rooted k segs out dotdot) :
    (if (rooted = true ∧ out.length ≠ 1) ∨ (rooted = false ∧ out.length ≠ 0)
        then out ++ ['/'] else out)
      = if List.replicate k ['.', '.'] ++ segs = [] then out else out ++ ['/'] := by
  obtain ⟨hsegs, _, hout, _⟩ := h
  have hnil := intercalate_eq_nil_iff _ (shape_elems_ne_nil k segs hsegs)
  by_cases hl : List.replicate k ['.', '.'] ++ segs = []
  · rw [if_pos hl]
    rw [hl, intercalate_nil_eq] at hout
    cases rooted <;> simp [hout]
  · rw [if_neg hl]
    have hj : List.intercalate ['/'] (List.replicate k ['.', '.'] ++ segs) ≠ [] :=
      fun hj => hl (hnil.mp hj)
    have hpos : 0 < (List.intercalate ['/'] (List.replicate k ['.', '.'] ++ segs)).length :=
      List.length_pos.mpr hj
    cases rooted
    · have hlen : out.length ≠ 0 := by
        rw [hout]
        simp only [Bool.false_eq_true, if_false, List.nil_append]
        omega
      simp [hlen]
    · have hlen : out.length ≠ 1 := by
        rw [hout]
        simp only [if_true, List.length_append, List.length_singleton]
        omega
      simp [hlen]

/-- Writing a real element keeps the shape, with the element added last. -/
theorem Shape_elem {rooted : Bool} {k : Nat} {segs : List (List Char)} {out : List Char}
    {dotdot : Nat} (h : Shape rooted k segs out dotdot) (s : List Char) (hs : IsElem s) :
    Shape rooted k (segs ++ [s])
      ((if (rooted = true ∧ out.length ≠ 1) ∨ (rooted = false ∧ out.length ≠ 0)
          then out ++ ['/'] else out) ++ s) dotdot := by
  have hsl := Shape_slashed h
  obtain ⟨hsegs, hk, hout, hdd⟩ := h
  refine ⟨?_, hk, ?_, hdd⟩
  · intro x hx
    rcases List.mem_append.mp hx with hx | hx
    · exact hsegs x hx
    · rw [List.mem_singleton.mp hx]
      exact hs
  · rw [hsl, ← List.append_assoc (List.replicate k ['.', '.']) segs [s]]
    by_cases hl : List.replicate k ['.', '.'] ++ segs = []
    · rw [if_pos hl, hl, List.nil_append, intercalate_single, hout, hl, intercalate_nil_eq,
        List.append_nil]
    · rw [if_neg hl, intercalate_append_of_ne_nil _ _ _ hl (by simp), intercalate_single, hout]
      simp [List.append_assoc]

/-- In a state of the loop, `dotdot` is short of the end of `out` exactly when
there is a kept element. -/
theorem Shape_dotdot_lt {rooted : Bool} {k : Nat} {segs : List (List Char)} {out : List Char}
    {dotdot : Nat} (h : Shape rooted k segs out dotdot) : dotdot < out.length ↔ segs ≠ [] := by
  obtain ⟨hsegs, _, hout, hdd⟩ := h
  have hlead : out.length = (if rooted then 1 else 0)
      + (List.intercalate ['/'] (List.replicate k ['.', '.'] ++ segs)).length := by
    rw [hout, List.length_append]
    cases rooted <;> rfl
  constructor
  · intro hlt hnil
    rw [hnil, List.append_nil] at hlead
    omega
  · intro hne
    rw [hlead, hdd]
    by_cases hd : List.replicate k ['.', '.'] = []
    · rw [hd, List.nil_append, intercalate_nil_eq]
      have hj : List.intercalate ['/'] segs ≠ [] := fun hj =>
        hne ((intercalate_eq_nil_iff segs (fun s hs => (hsegs s hs).1)).mp hj)
      have := List.length_pos.mpr hj
      simp only [List.length_nil]
      omega
    · rw [intercalate_append_of_ne_nil _ _ _ hd hne]
      simp only [List.length_append, List.length_singleton]
      omega

/-- A `..` element that can backtrack removes the last kept element. -/
theorem Shape_backtrack {rooted : Bool} {k : Nat} {segs : List (List Char)} {s out : List Char}
    {dotdot : Nat} (h : Shape rooted k (segs ++ [s]) out dotdot) :
    Shape rooted k segs (out.take (backtrack out dotdot (out.length - 1))) dotdot := by
  obtain ⟨hsegs, hk, hout, hdd⟩ := h
  have hs : IsElem s := hsegs s (by simp)
  have hsegs' : ∀ x ∈ segs, IsElem x := fun x hx => hsegs x (List.mem_append_left _ hx)
  refine ⟨hsegs', hk, ?_, hdd⟩
  rw [← List.append_assoc] at hout
  by_cases hl : List.replicate k ['.', '.'] ++ segs = []
  · have hd : List.replicate k ['.', '.'] = [] := (List.append_eq_nil.mp hl).1
    rw [hl, List.nil_append, intercalate_single] at hout
    rw [hd, intercalate_nil_eq, List.length_nil, Nat.add_zero] at hdd
    have hlen : dotdot = (if rooted then ['/'] else ([] : List Char)).length := by
      rw [hdd]
      cases rooted <;> rfl
    rw [hl, intercalate_nil_eq, List.append_nil, hout, hlen,
      backtrack_to_dotdot _ s hs.2.1 hs.1, List.take_left']
    rfl
  · have hle : dotdot ≤ ((if rooted then ['/'] else ([] : List Char))
        ++ List.intercalate ['/'] (List.replicate k ['.', '.'] ++ segs)).length := by
      rw [hdd, List.length_append]
      have h1 : (if rooted then ['/'] else ([] : List Char)).length = if rooted then 1 else 0 := by
        cases rooted <;> rfl
      rw [h1]
      apply Nat.add_le_add_left
      by_cases hd : List.replicate k ['.', '.'] = []
      · rw [hd, intercalate_nil_eq]
        exact Nat.zero_le _
      · by_cases hsg : segs = []
        · rw [hsg, List.append_nil]
        · rw [intercalate_append_of_ne_nil _ _ _ hd hsg]
          simp only [List.length_append]
          omega
    have hout' : out = ((if rooted then ['/'] else ([] : List Char))
        ++ List.intercalate ['/'] (List.replicate k ['.', '.'] ++ segs)) ++ '/' :: s := by
      rw [hout, intercalate_append_of_ne_nil _ _ _ hl (by simp), intercalate_single]
      simp [List.append_assoc]
    rw [hout', backtrack_after_slash _ s dotdot hs.2.1 hle, List.take_left']
    rfl

/-- A `..` element that cannot backtrack in a path that is not rooted is
written as one more leading `..`. -/
theorem Shape_dotdot {k : Nat} {out : List Char} {dotdot : Nat}
    (h : Shape false k [] out dotdot) :
    Shape false (k + 1) [] ((if 0 < out.length then out ++ ['/'] else out) ++ ['.', '.'])
      ((if 0 < out.length then out ++ ['/'] else out) ++ ['.', '.']).length := by
  obtain ⟨_, _, hout, _⟩ := h
  simp only [Bool.false_eq_true, if_false, List.nil_append, List.append_nil] at hout
  have hrep : List.replicate (k + 1) ['.', '.'] = List.replicate k ['.', '.'] ++ [['.', '.']] :=
    List.replicate_succ' k _
  have hnew : (if 0 < out.length then out ++ ['/'] else out) ++ ['.', '.']
      = List.intercalate ['/'] (List.replicate (k + 1) ['.', '.']) := by
    rw [hrep]
    by_cases hd : List.replicate k ['.', '.'] = []
    · rw [hd, intercalate_nil_eq] at hout
      rw [hd, hout]
      simp [intercalate_single]
    · have hj : out ≠ [] := by
        rw [hout]
        intro hj
        exact hd ((intercalate_eq_nil_iff _ (by
          intro s hs
          rw [(List.mem_replicate.mp hs).2]
          simp)).mp hj)
      rw [if_pos (List.length_pos.mpr hj), intercalate_append_of_ne_nil _ _ _ hd (by simp),
        intercalate_single, hout]
  refine ⟨by simp, by simp, ?_, ?_⟩
  · simp only [Bool.false_eq_true, if_false, List.nil_append, List.append_nil]
    exact hnew
  · simp only [Bool.false_eq_true, if_false, Nat.zero_add]
    rw [hnew]

end path

namespace path

/-- No byte is taken up to a `/` only at the end of the path or at a `/`. -/
theorem takeWhile_eq_nil_boundary (rest : List Char)
    (h : rest.takeWhile (fun x => decide (x ≠ '/')) = []) :
    rest = [] ∨ rest.head? = some '/' := by
  cases rest with
  | nil => exact Or.inl rfl
  | cons x t =>
    right
    by_cases hx : x = '/'
    · simp [hx]
    · simp [List.takeWhile_cons, hx] at h

/-- The bytes up to the next `/`, read where the loop finds neither a `/`, a
`.` element nor a `..` element, are an element that is kept. -/
theorem takeWhile_isElem (c : Char) (rest : List Char) (h1 : ¬ c = '/')
    (h2 : ¬ (c = '.' ∧ (rest = [] ∨ rest.head? = some '/')))
    (h3 : ¬ (c = '.' ∧ rest.head? = some '.' ∧ (rest.tail = [] ∨ rest.tail.head? = some '/'))) :
    IsElem ((c :: rest).takeWhile (fun x => decide (x ≠ '/'))) := by
  have hcons : (c :: rest).takeWhile (fun x => decide (x ≠ '/'))
      = c :: rest.takeWhile (fun x => decide (x ≠ '/')) := by
    simp [List.takeWhile_cons, h1]
  refine ⟨?_, ?_, ?_, ?_⟩
  · rw [hcons]
    simp
  · intro hmem
    have := List.mem_takeWhile_imp hmem
    simp at this
  · rw [hcons]
    intro heq
    have hc : c = '.' := (List.cons.inj heq).1
    have ht := takeWhile_eq_nil_boundary rest (List.cons.inj heq).2
    exact h2 ⟨hc, ht⟩
  · rw [hcons]
    intro heq
    have hc : c = '.' := (List.cons.inj heq).1
    have ht : rest.takeWhile (fun x => decide (x ≠ '/')) = ['.'] := (List.cons.inj heq).2
    cases rest with
    | nil => simp at ht
    | cons x t =>
      by_cases hx : x = '/'
      · simp [List.takeWhile_cons, hx] at ht
      · have hcons2 : (x :: t).takeWhile (fun x => decide (x ≠ '/'))
            = x :: t.takeWhile (fun x => decide (x ≠ '/')) := by
          simp [List.takeWhile_cons, hx]
        rw [hcons2] at ht
        have hxd : x = '.' := (List.cons.inj ht).1
        have htt := takeWhile_eq_nil_boundary t (List.cons.inj ht).2
        exact h3 ⟨hc, by simp [hxd], htt⟩

/-- One iteration of the loop keeps the shape of `out` and `dotdot`. -/
theorem Shape_step {rooted : Bool} {k : Nat} {segs : List (List Char)} {out : List Char}
    {dotdot : Nat} (h : Shape rooted k segs out dotdot) (c : Char) (rest : List Char) :
    ∃ k2 segs2, Shape rooted k2 segs2 (cleanStep rooted c rest out dotdot).2.1
      (cleanStep rooted c rest out dotdot).2.2 := by
  unfold cleanStep
  by_cases h1 : c = '/'
  · rw [if_pos h1]
    exact ⟨k, segs, h⟩
  · rw [if_neg h1]
    by_cases h2 : c = '.' ∧ (rest = [] ∨ rest.head? = some '/')
    · rw [if_pos h2]
      exact ⟨k, segs, h⟩
    · rw [if_neg h2]
      by_cases h3 : c = '.' ∧ rest.head? = some '.'
          ∧ (rest.tail = [] ∨ rest.tail.head? = some '/')
      · rw [if_pos h3]
        by_cases hlt : dotdot < out.length
        · rw [if_pos hlt]
          have hne : segs ≠ [] := (Shape_dotdot_lt h).mp hlt
          have hsplit : segs = segs.dropLast ++ [segs.getLast hne] :=
            (List.dropLast_append_getLast hne).symm
          rw [hsplit] at h
          exact ⟨k, segs.dropLast, Shape_backtrack h⟩
        · rw [if_neg hlt]
          have hnil : segs = [] := by
            by_contra hne
            exact hlt ((Shape_dotdot_lt h).mpr hne)
          by_cases hr : rooted = false
          · rw [if_pos hr]
            subst hr
            subst hnil
            exact ⟨k + 1, [], Shape_dotdot h⟩
          · rw [if_neg hr]
            exact ⟨k, segs, h⟩
      · rw [if_neg h3]
        exact ⟨k, _, Shape_elem h _ (takeWhile_isElem c rest h1 h2 h3)⟩

/-- The loop keeps the shape of `out` and `dotdot`. -/
theorem Shape_cleanFrom (rooted : Bool) : ∀ (n : Nat) (rest out : List Char) (dotdot k : Nat)
    (segs : List (List Char)), rest.length ≤ n → Shape rooted k segs out dotdot →
    ∃ k2 segs2, Shape rooted k2 segs2 (cleanFrom rooted rest out dotdot).1
      (cleanFrom rooted rest out dotdot).2 := by
  intro n
  induction n with
  | zero =>
    intro rest out dotdot k segs hn h
    have hr : rest = [] := List.length_eq_zero.mp (Nat.le_zero.mp hn)
    subst hr
    exact ⟨k, segs, h⟩
  | succ n ih =>
    intro rest out dotdot k segs hn h
    cases rest with
    | nil => exact ⟨k, segs, h⟩
    | cons c r =>
      have hr : r.length ≤ n := by simpa using hn
      obtain ⟨k2, segs2, h2⟩ := Shape_step h c r
      rw [cleanFrom_cons]
      exact ih _ _ _ k2 segs2 (le_trans (cleanStep_length_le rooted c r out dotdot) hr) h2

/-- The loop on kept elements joined by `/` appends them to the kept elements. -/
theorem Shape_cleanFrom_elems (rooted : Bool) : ∀ (segs : List (List Char)) (k : Nat)
    (segs0 : List (List Char)) (out : List Char) (dotdot : Nat),
    segs ≠ [] → (∀ s ∈ segs, IsElem s) → Shape rooted k segs0 out dotdot →
    Shape rooted k (segs0 ++ segs) (cleanFrom rooted (List.intercalate ['/'] segs) out dotdot).1
        (cleanFrom rooted (List.intercalate ['/'] segs) out dotdot).2 := by
  intro segs
  induction segs with
  | nil =>
    intro k segs0 out dotdot hne
    exact absurd rfl hne
  | cons s t ih =>
    intro k segs0 out dotdot _ hall h
    have hs : IsElem s := hall s (by simp)
    cases t with
    | nil =>
      rw [intercalate_single, cleanFrom_elem rooted s out dotdot hs]
      exact Shape_elem h s hs
    | cons s2 t2 =>
      have hjoin : List.intercalate ['/'] (s :: s2 :: t2)
          = s ++ '/' :: List.intercalate ['/'] (s2 :: t2) := by
        rw [intercalate_cons_cons]
        simp [List.append_assoc]
      rw [hjoin, cleanFrom_append rooted ('/' :: List.intercalate ['/'] (s2 :: t2)) (Or.inr rfl)
          s.length s out dotdot (le_refl _),
        cleanFrom_elem rooted s out dotdot hs, cleanFrom_slash]
      have h2 := ih k (segs0 ++ [s]) _ dotdot (by simp)
        (fun x hx => hall x (List.mem_cons_of_mem s hx)) (Shape_elem h s hs)
      rw [List.append_assoc] at h2
      exact h2

/-- When the path ends with a kept element that stands alone or follows a `/`,
the loop ends with that element as the last kept element. -/
theorem Shape_cleanFrom_last (rooted : Bool) (front e : List Char) (he : IsElem e)
    (hfront : front = [] ∨ ∃ f, front = f ++ ['/']) (k : Nat) (segs : List (List Char))
    (out : List Char) (dotdot : Nat) (h : Shape rooted k segs out dotdot) :
    ∃ k2 segs2, Shape rooted k2 (segs2 ++ [e]) (cleanFrom rooted (front ++ e) out dotdot).1
      (cleanFrom rooted (front ++ e) out dotdot).2 := by
  rcases hfront with hf | ⟨f, hf⟩
  · rw [hf, List.nil_append, cleanFrom_elem rooted e out dotdot he]
    exact ⟨k, segs, Shape_elem h e he⟩
  · have hcut : front ++ e = f ++ '/' :: e := by
      rw [hf]
      simp [List.append_assoc]
    obtain ⟨k2, segs2, h2⟩ := Shape_cleanFrom rooted f.length f out dotdot k segs (le_refl _) h
    rw [hcut, cleanFrom_append rooted ('/' :: e) (Or.inr rfl) f.length f out dotdot (le_refl _),
      cleanFrom_slash, cleanFrom_elem rooted e _ _ he]
    exact ⟨k2, segs2, Shape_elem h2 e he⟩

end path

namespace path

/-- A path is cut after its last `/`: the part in front is empty or ends with
`/`, and the part behind has no `/`. -/
theorem exists_last_elem (x : List Char) :
    ∃ front last, x = front ++ last ∧ '/' ∉ last ∧ (front = [] ∨ ∃ f, front = f ++ ['/']) := by
  induction x with
  | nil => exact ⟨[], [], rfl, by simp, Or.inl rfl⟩
  | cons c t ih =>
    obtain ⟨front, last, hx, hlast, hfront⟩ := ih
    rcases hfront with hf | ⟨f, hf⟩
    · subst hf
      by_cases hc : c = '/'
      · exact ⟨['/'], last, by rw [hx, hc]; rfl, hlast, Or.inr ⟨[], rfl⟩⟩
      · refine ⟨[], c :: last, by rw [hx]; rfl, ?_, Or.inl rfl⟩
        intro hmem
        rcases List.mem_cons.mp hmem with h | h
        · exact hc h.symm
        · exact hlast h
    · exact ⟨c :: front, last, by rw [hx]; rfl, hlast, Or.inr ⟨c :: f, by rw [hf]; rfl⟩⟩

/-- A name without `/` followed by `.log` is an element that `Clean` keeps. -/
theorem isElem_log (last : List Char) (h : '/' ∉ last) : IsElem (last ++ ".log".toList) := by
  refine ⟨by simp, ?_, ?_, ?_⟩
  · intro hmem
    rcases List.mem_append.mp hmem with hm | hm
    · exact h hm
    · revert hm
      decide
  · intro heq
    have hlen := congrArg List.length heq
    simp at hlen
  · intro heq
    have hlen := congrArg List.length heq
    simp at hlen

/-- The value of `Clean` on a rooted path, by the loop run to its end. -/
theorem Clean_of_rooted (p : List Char) (h : p.head? = some '/') :
    Clean p = if (cleanFrom true p.tail ['/'] 1).1.length = 0 then ['.']
      else (cleanFrom true p.tail ['/'] 1).1 := by
  have hne : p ≠ [] := by
    intro hp
    rw [hp] at h
    simp at h
  have hd : decide (p.head? = some '/') = true := decide_eq_true h
  have hloop : cleanLoop true p.length p.tail ['/'] 1 = cleanFrom true p.tail ['/'] 1 :=
    cleanLoop_fuel true p.length _ _ _ _ (by simp) (by simp)
  unfold Clean
  rw [if_neg hne]
  simp only [hd, if_true]
  rw [hloop]

/-- The value of `Clean` on a non-empty path that is not rooted, by the loop run
to its end. -/
theorem Clean_of_not_rooted (p : List Char) (hne : p ≠ []) (h : ¬ p.head? = some '/') :
    Clean p = if (cleanFrom false p [] 0).1.length = 0 then ['.']
      else (cleanFrom false p [] 0).1 := by
  have hd : decide (p.head? = some '/') = false := decide_eq_false h
  have hloop : cleanLoop false p.length p [] 0 = cleanFrom false p [] 0 := rfl
  unfold Clean
  rw [if_neg hne]
  simp only [hd, Bool.false_eq_true, if_false]
  rw [hloop]

/-- The value of `Clean` on a rooted path: the root followed by kept elements
joined by `/`. -/
theorem Clean_rooted (q : List Char) :
    ∃ segs, (∀ s ∈ segs, IsElem s) ∧ Clean ('/' :: q) = '/' :: List.intercalate ['/'] segs := by
  obtain ⟨k, segs, hsegs, hk, hout, _⟩ :=
    Shape_cleanFrom true q.length q ['/'] 1 0 [] (le_refl _) (Shape_init true)
  have hk0 : k = 0 := hk rfl
  subst hk0
  refine ⟨segs, hsegs, ?_⟩
  rw [Clean_of_rooted ('/' :: q) rfl, List.tail_cons, hout]
  simp

/-- The value of `Clean` on a rooted path that ends in `.log`: the root followed
by a non-empty list of kept elements joined by `/`. -/
theorem Clean_rooted_log (x : List Char) :
    ∃ segs, segs ≠ [] ∧ (∀ s ∈ segs, IsElem s)
      ∧ Clean ('/' :: (x ++ ".log".toList)) = '/' :: List.intercalate ['/'] segs := by
  obtain ⟨front, last, hx, hlast, hfront⟩ := exists_last_elem x
  have hcut : x ++ ".log".toList = front ++ (last ++ ".log".toList) := by
    rw [hx, List.append_assoc]
  obtain ⟨k, segs, hsegs, hk, hout, _⟩ :=
    Shape_cleanFrom_last true front (last ++ ".log".toList) (isElem_log last hlast) hfront
      0 [] ['/'] 1 (Shape_init true)
  have hk0 : k = 0 := hk rfl
  subst hk0
  refine ⟨segs ++ [last ++ ".log".toList], by simp, hsegs, ?_⟩
  rw [Clean_of_rooted ('/' :: (x ++ ".log".toList)) rfl, List.tail_cons, hcut, hout]
  simp

end path

namespace path

/-- Joined elements, none of them empty, `/` or `.`, are neither `/` nor `.`. -/
theorem joined_ne_single (l : List (List Char)) (hl : l ≠ [])
    (h : ∀ x ∈ l, x ≠ [] ∧ x ≠ ['/'] ∧ x ≠ ['.']) :
    List.intercalate ['/'] l ≠ ['/'] ∧ List.intercalate ['/'] l ≠ ['.'] := by
  cases l with
  | nil => exact absurd rfl hl
  | cons x t =>
    have hx := h x (by simp)
    cases t with
    | nil =>
      rw [intercalate_single]
      exact ⟨hx.2.1, hx.2.2⟩
    | cons y u =>
      rw [intercalate_cons_cons]
      have hpos : 0 < x.length := List.length_pos.mpr hx.1
      constructor <;>
      · intro heq
        have hlen := congrArg List.length heq
        simp only [List.length_append, List.length_singleton] at hlen
        omega

/-- The leading `..` elements and the kept elements are none of them empty,
`/` or `.`. -/
theorem shape_elems_ne_single (k : Nat) (segs : List (List Char))
    (hsegs : ∀ s ∈ segs, IsElem s) :
    ∀ s ∈ List.replicate k ['.', '.'] ++ segs, s ≠ [] ∧ s ≠ ['/'] ∧ s ≠ ['.'] := by
  intro s hs
  rcases List.mem_append.mp hs with h | h
  · rw [(List.mem_replicate.mp h).2]
    simp
  · obtain ⟨h1, h2, h3, _⟩ := hsegs s h
    refine ⟨h1, ?_, h3⟩
    intro heq
    exact h2 (by rw [heq]; simp)

/-- Kept elements joined by `/` do not start with `/`. -/
theorem joined_head_ne_slash (segs : List (List Char)) (hall : ∀ s ∈ segs, IsElem s) :
    ¬ (List.intercalate ['/'] segs).head? = some '/' := by
  cases segs with
  | nil => simp [intercalate_nil_eq]
  | cons s t =>
    obtain ⟨hne, hslash, _, _⟩ := hall s (by simp)
    cases s with
    | nil => exact absurd rfl hne
    | cons c r =>
      have hc : c ≠ '/' := fun h => hslash (by simp [h])
      cases t with
      | nil =>
        rw [intercalate_single]
        simpa using hc
      | cons y u =>
        rw [intercalate_cons_cons]
        simpa using hc

/-- From a state of the loop and the state after more kept elements have been
written: `out` has grown by the new elements, after a `/` unless it was empty
or the root; and `out` was not `.`. -/
theorem Shape_base {rooted : Bool} {k : Nat} {segsD segs : List (List Char)}
    {outD outF : List Char} {d1 d2 : Nat} (hD : Shape rooted k segsD outD d1)
    (hF : Shape rooted k (segsD ++ segs) outF d2) (hne : segs ≠ []) :
    outF = (if outD = [] then [] else if outD = ['/'] then ['/'] else outD ++ ['/'])
        ++ List.intercalate ['/'] segs
    ∧ outD ≠ ['.'] := by
  obtain ⟨hsegsD, _, houtD, _⟩ := hD
  obtain ⟨_, _, houtF, _⟩ := hF
  rw [← List.append_assoc] at houtF
  have hnil := intercalate_eq_nil_iff _ (shape_elems_ne_nil k segsD hsegsD)
  by_cases hl : List.replicate k ['.', '.'] ++ segsD = []
  · rw [hl, intercalate_nil_eq, List.append_nil] at houtD
    rw [hl, List.nil_append] at houtF
    cases rooted
    · simp only [Bool.false_eq_true, if_false] at houtD houtF
      rw [houtD, houtF]
      simp
    · simp only [if_true] at houtD houtF
      rw [houtD, houtF]
      simp
  · have hj : List.intercalate ['/'] (List.replicate k ['.', '.'] ++ segsD) ≠ [] :=
      fun hj => hl (hnil.mp hj)
    have hsingle := joined_ne_single _ hl (shape_elems_ne_single k segsD hsegsD)
    rw [intercalate_append_of_ne_nil _ _ _ hl hne] at houtF
    cases rooted
    · simp only [Bool.false_eq_true, if_false, List.nil_append] at houtD houtF
      rw [houtF, houtD, if_neg hj, if_neg hsingle.1]
      exact ⟨rfl, hsingle.2⟩
    · simp only [if_true] at houtD houtF
      have h1 : outD ≠ [] := by
        rw [houtD]
        simp
      have h2 : outD ≠ ['/'] := by
        rw [houtD]
        intro heq
        exact hj (by simpa using heq)
      have h3 : outD ≠ ['.'] := by
        rw [houtD]
        intro heq
        simp at heq
      rw [if_neg h1, if_neg h2, houtF, houtD]
      exact ⟨by simp [List.append_assoc], by rw [← houtD]; exact h3⟩

end path

namespace filepath

/-- The value of `Join` on a directory name and kept elements joined by `/`: the
part that names the directory, then the elements as they are. -/
theorem Join_dir_elems (dir : List Char) (segs : List (List Char)) (hne : segs ≠ [])
    (hall : ∀ s ∈ segs, path.IsElem s) :
    Join [dir, List.intercalate ['/'] segs] = dirBase dir ++ List.intercalate ['/'] segs := by
  have hcomp : List.intercalate ['/'] segs ≠ [] := fun h =>
    hne ((path.intercalate_eq_nil_iff segs (fun s hs => (hall s hs).1)).mp h)
  have hhead := path.joined_head_ne_slash segs hall
  by_cases hdir : dir = []
  · subst hdir
    have hJ : Join [[], List.intercalate ['/'] segs]
        = path.Clean (List.intercalate ['/'] segs) := by
      simp [Join, Clean, hcomp, path.intercalate_single]
    have hS := path.Shape_cleanFrom_elems false segs 0 [] [] 0 hne hall (path.Shape_init false)
    obtain ⟨_, _, hout, _⟩ := hS
    simp only [Bool.false_eq_true, if_false, List.nil_append, List.replicate_zero] at hout
    rw [hJ, path.Clean_of_not_rooted _ hcomp hhead, hout]
    simp [dirBase, hcomp]
  · have hJ : Join [dir, List.intercalate ['/'] segs]
        = path.Clean (dir ++ '/' :: List.intercalate ['/'] segs) := by
      simp [Join, Clean, hdir, path.intercalate_cons_cons, path.intercalate_single]
    obtain ⟨c, r, hcr⟩ := List.exists_cons_of_ne_nil hdir
    by_cases hr : dir.head? = some '/'
    · have hhd : (dir ++ '/' :: List.intercalate ['/'] segs).head? = some '/' := by
        rw [hcr] at hr ⊢
        simpa using hr
      have htl : (dir ++ '/' :: List.intercalate ['/'] segs).tail
          = dir.tail ++ '/' :: List.intercalate ['/'] segs := by
        rw [hcr]
        rfl
      obtain ⟨k, segsD, hD⟩ := path.Shape_cleanFrom true dir.tail.length dir.tail ['/'] 1 0 []
        (le_refl _) (path.Shape_init true)
      have hF := path.Shape_cleanFrom_elems true segs k segsD _ _ hne hall hD
      obtain ⟨hgrow, hdot⟩ := path.Shape_base hD hF hne
      have hFne : (path.cleanFrom true (List.intercalate ['/'] segs)
          (path.cleanFrom true dir.tail ['/'] 1).1
          (path.cleanFrom true dir.tail ['/'] 1).2).1 ≠ [] := by
        rw [hgrow]
        simp [hcomp]
      rw [hJ, path.Clean_of_rooted _ hhd, htl,
        path.cleanFrom_append true ('/' :: List.intercalate ['/'] segs) (Or.inr rfl)
          dir.tail.length dir.tail ['/'] 1 (le_refl _),
        path.cleanFrom_slash, if_neg (by simpa using hFne), hgrow]
      unfold dirBase Clean
      rw [if_neg hdir, path.Clean_of_rooted dir hr]
      by_cases hD0 : (path.cleanFrom true dir.tail ['/'] 1).1 = []
      · simp [hD0]
      · by_cases hD1 : (path.cleanFrom true dir.tail ['/'] 1).1 = ['/']
        · simp [hD1]
        · simp [hD0, hD1, hdot]
    · have hhd : ¬ (dir ++ '/' :: List.intercalate ['/'] segs).head? = some '/' := by
        rw [hcr] at hr ⊢
        simpa using hr
      obtain ⟨k, segsD, hD⟩ := path.Shape_cleanFrom false dir.length dir [] 0 0 []
        (le_refl _) (path.Shape_init false)
      have hF := path.Shape_cleanFrom_elems false segs k segsD _ _ hne hall hD
      obtain ⟨hgrow, hdot⟩ := path.Shape_base hD hF hne
      have hFne : (path.cleanFrom false (List.intercalate ['/'] segs)
          (path.cleanFrom false dir [] 0).1 (path.cleanFrom false dir [] 0).2).1 ≠ [] := by
        rw [hgrow]
        simp [hcomp]
      rw [hJ, path.Clean_of_not_rooted _ (by simp) hhd,
        path.cleanFrom_append false ('/' :: List.intercalate ['/'] segs) (Or.inr rfl)
          dir.length dir [] 0 (le_refl _),
        path.cleanFrom_slash, if_neg (by simpa using hFne), hgrow]
      unfold dirBase Clean
      rw [if_neg hdir, path.Clean_of_not_rooted dir hdir hr]
      by_cases hD0 : (path.cleanFrom false dir [] 0).1 = []
      · simp [hD0]
      · by_cases hD1 : (path.cleanFrom false dir [] 0).1 = ['/']
        · simp [hD1]
        · simp [hD0, hD1, hdot]

end filepath

namespace filepath

/-- The part of a path that names a directory is empty or ends with `/`. -/
theorem dirBase_ends_with_slash (dir : List Char) :
    dirBase dir = [] ∨ (dirBase dir).getLast? = some '/' := by
  unfold dirBase
  split_ifs
  · exact Or.inl rfl
  · exact Or.inr rfl
  · exact Or.inl rfl
  · right
    simp

end filepath

namespace fs

/-- The path that `logFilePath` cleans is rooted and ends in `.log`. -/
theorem logFilePath_rooted (IDString : List Char) :
    ∃ x, (if strings.HasPrefix (IDString ++ ".log".toList) "/".toList = false
        then "/".toList ++ (IDString ++ ".log".toList) else IDString ++ ".log".toList)
      = '/' :: (x ++ ".log".toList) := by
  cases IDString with
  | nil => exact ⟨[], by decide⟩
  | cons c t =>
    by_cases hc : c = '/'
    · refine ⟨t, ?_⟩
      subst hc
      simp [strings.HasPrefix]
    · refine ⟨c :: t, ?_⟩
      have hp : strings.HasPrefix (c :: t ++ ".log".toList) "/".toList = false := by
        simp [strings.HasPrefix, List.isPrefixOf, Ne.symm hc]
      rw [if_pos hp]
      rfl

/-- C12: for every build log directory and every task ID string, the index
`[1:]` on the cleaned path is in range, and `logFilePath` returns the part that
names the build log directory (empty or ending with `/`, and the same for all
task IDs) followed by a component that is not empty, does not start with `/`
and whose elements between `/` are none of them empty, `.` or `..`: the log
file is inside the build log directory. -/
theorem C12_logFilePath_inside_BuildLogDir (BuildLogDir IDString : List Char) :
    ∃ comp : List Char,
      sliceFrom (path.Clean
          (if strings.HasPrefix (IDString ++ ".log".toList) "/".toList = false
            then "/".toList ++ (IDString ++ ".log".toList) else IDString ++ ".log".toList)) 1
        = some comp
      ∧ logFilePath BuildLogDir IDString = some (filepath.Join [BuildLogDir, comp])
      ∧ logFilePath BuildLogDir IDString = some (filepath.dirBase BuildLogDir ++ comp)
      ∧ (filepath.dirBase BuildLogDir = []
          ∨ (filepath.dirBase BuildLogDir).getLast? = some '/')
      ∧ comp ≠ []
      ∧ ¬ comp.head? = some '/'
      ∧ (∀ seg ∈ comp.splitOn '/', seg ≠ [] ∧ seg ≠ ['.'] ∧ seg ≠ ['.', '.']) := by
  obtain ⟨x, hx⟩ := logFilePath_rooted IDString
  obtain ⟨segs, hne, hall, hclean⟩ := path.Clean_rooted_log x
  have hslice : sliceFrom (path.Clean
      (if strings.HasPrefix (IDString ++ ".log".toList) "/".toList = false
        then "/".toList ++ (IDString ++ ".log".toList) else IDString ++ ".log".toList)) 1
      = some (List.intercalate ['/'] segs) := by
    rw [hx, hclean]
    simp [sliceFrom]
  have hlog : logFilePath BuildLogDir IDString
      = some (filepath.Join [BuildLogDir, List.intercalate ['/'] segs]) := by
    unfold logFilePath
    simp only [hslice]
  have hsplit : (List.intercalate ['/'] segs).splitOn '/' = segs :=
    List.splitOn_intercalate segs '/' (fun l hl => (hall l hl).2.1) hne
  refine ⟨List.intercalate ['/'] segs, hslice, hlog, ?_,
    filepath.dirBase_ends_with_slash BuildLogDir, ?_, path.joined_head_ne_slash segs hall, ?_⟩
  · rw [hlog, filepath.Join_dir_elems BuildLogDir segs hne hall]
  · intro h
    exact hne ((path.intercalate_eq_nil_iff segs (fun s hs => (hall s hs).1)).mp h)
  · intro seg hseg
    rw [hsplit] at hseg
    exact ⟨(hall seg hseg).1, (hall seg hseg).2.2.1, (hall seg hseg).2.2.2⟩

end fs

/-! ## Theorems: concurrent callers of one cache

`Token()` holds the mutex of the cache from its entry to its return, so calls
made concurrently on one cache take effect one after another, in some order:
a sequence of calls, as in `run`.
-/

namespace sharedsecret

/-- A call on a cache directly over a non-defensive source leaves such a
cache. -/
theorem Token_single_layer_shape {σ : Type} (fetch : σ → time.Time → oauth2.TokenResult × σ)
    (s : σ) (t : Option oauth2.Token) (now : time.Time) :
    ∃ s2 t2, ((oauth2.TokenSource.defensiveReuseTokenSource (.other s) t).Token fetch now).2.1
      = .defensiveReuseTokenSource (.other s2) t2 := by
  cases hv : valid t now
  · cases he : ((oauth2.TokenSource.other s).Token fetch now).1.err with
    | none =>
      rw [Token_of_invalid_ok fetch _ t now hv he, Token_other]
      exact ⟨_, _, rfl⟩
    | some e =>
      rw [Token_of_invalid_err fetch _ t now e hv he, Token_other]
      exact ⟨_, _, rfl⟩
  · rw [Token_of_valid fetch _ t now hv]
    exact ⟨_, _, rfl⟩

/-- The number of `fetch` events of a call is the number of underlying calls
that `Token()` reports. -/
theorem events_count_fetch {σ : Type} (fetch : σ → time.Time → oauth2.TokenResult × σ)
    (s : σ) (t : Option oauth2.Token) (now : time.Time) :
    ((oauth2.TokenSource.defensiveReuseTokenSource (.other s) t).events now).count .fetch
      = ((oauth2.TokenSource.defensiveReuseTokenSource (.other s) t).Token fetch now).2.2 := by
  cases hv : valid t now
  · cases he : ((oauth2.TokenSource.other s).Token fetch now).1.err with
    | none =>
      rw [Token_of_invalid_ok fetch _ t now hv he, Token_other]
      simp [oauth2.TokenSource.events, hv]
    | some e =>
      rw [Token_of_invalid_err fetch _ t now e hv he, Token_other]
      simp [oauth2.TokenSource.events, hv]
  · rw [Token_of_valid fetch _ t now hv]
    simp [oauth2.TokenSource.events, hv]

/-- Calls made one after another on a cache directly over a non-defensive
source: every running count of underlying calls is at most the count at the
start plus the number of calls. -/
theorem run_single_layer_count_le {σ : Type} (fetch : σ → time.Time → oauth2.TokenResult × σ) :
    ∀ (times : List time.Time) (s : σ) (t : Option oauth2.Token) (n : Nat),
      ∀ p ∈ (run fetch (.defensiveReuseTokenSource (.other s) t) n times).1,
        p.2 ≤ n + times.length := by
  intro times
  induction times with
  | nil =>
    intro s t n p hp
    rw [run_nil] at hp
    simp at hp
  | cons now rest ih =>
    intro s t n p hp
    have hle := Token_single_layer_calls_le_one fetch s t now
    obtain ⟨s2, t2, hshape⟩ := Token_single_layer_shape fetch s t now
    rw [run_cons] at hp
    simp only [List.mem_cons] at hp
    rcases hp with hp | hp
    · rw [hp]
      simp only [List.length_cons]
      omega
    · rw [hshape] at hp
      have := ih s2 t2 _ p hp
      simp only [List.length_cons]
      omega

/-- Every call of a sequence returns a result. -/
theorem run_length {σ : Type} (fetch : σ → time.Time → oauth2.TokenResult × σ) :
    ∀ (times : List time.Time) (src : oauth2.TokenSource σ) (n : Nat),
      (run fetch src n times).1.length = times.length := by
  intro times
  induction times with
  | nil =>
    intro src n
    rfl
  | cons now rest ih =>
    intro src n
    rw [run_cons]
    simp [ih]

/-- Calls made one after another on an empty cache over a source whose calls
all fail: every call makes its own underlying call and returns a failure with
no token. -/
theorem run_failing {σ : Type} (fetch : σ → time.Time → oauth2.TokenResult × σ)
    (hfail : ∀ (s : σ) (now : time.Time), (fetch s now).1.err ≠ none) :
    ∀ (times : List time.Time) (s : σ) (n : Nat),
      (run fetch (.defensiveReuseTokenSource (.other s) none) n times).1.map Prod.snd
          = List.range' (n + 1) times.length
      ∧ ∀ p ∈ (run fetch (.defensiveReuseTokenSource (.other s) none) n times).1,
          p.1.tok = none ∧ p.1.err ≠ none := by
  intro times
  induction times with
  | nil =>
    intro s n
    rw [run_nil]
    simp
  | cons now rest ih =>
    intro s n
    obtain ⟨e, he⟩ := Option.ne_none_iff_exists'.mp (hfail s now)
    have he2 : ((oauth2.TokenSource.other s).Token fetch now).1.err = some e := by
      rw [Token_other]
      exact he
    have hT := Token_of_invalid_err fetch (.other s) none now e (valid_none now) he2
    rw [Token_other] at hT
    rw [run_cons, hT]
    obtain ⟨ih1, ih2⟩ := ih (fetch s now).2 (n + 1)
    constructor
    · simp only [List.map_cons, List.length_cons, List.range'_succ, ih1]
    · intro p hp
      simp only [List.mem_cons] at hp
      rcases hp with hp | hp
      · rw [hp]
        simp
      · exact ih2 p hp

/-- C7 (counterexample): two callers of one empty cache over a source whose
fetch fails, both at `t0`, one after the other under the mutex: each makes its
own underlying fetch, two fetches in all and not exactly one, and each gets
the failure of its own fetch. -/
theorem C7_each_caller_repeats_a_failed_fetch :
    (run failFetch (DefensiveReuseTokenSource none (.other ())) 0 [t0, t0]).1
      = [(⟨none, some "fetch failed"⟩, 1), (⟨none, some "fetch failed"⟩, 2)]
    ∧ (run failFetch (DefensiveReuseTokenSource none (.other ())) 0 [t0, t0]).1.map Prod.snd
      ≠ [1, 1] := by
  decide

/-- C7 (amended): on a cache directly over a non-defensive source, every call
locks the mutex first and unlocks it last, with at most one underlying fetch
in between and whether or not that fetch fails; so `N` calls, which take effect
one after another, all return and make at most `N` underlying fetches.  A call
that finds a token that `valid` accepts returns it with no fetch.  A failed
fetch is not kept: on an empty cache over a source whose fetches all fail, each
of the `N` callers makes its own fetch and gets a failure with no token. -/
theorem C7_calls_take_turns_under_the_mutex {σ : Type}
    (fetch : σ → time.Time → oauth2.TokenResult × σ) (s : σ) (t : Option oauth2.Token) :
    (∀ now : time.Time,
        (oauth2.TokenSource.defensiveReuseTokenSource (.other s) t).events now
          = if valid t now then [.lock, .unlock] else [.lock, .fetch, .unlock])
    ∧ (∀ now : time.Time,
        ((oauth2.TokenSource.defensiveReuseTokenSource (.other s) t).events now).count .fetch
          = ((oauth2.TokenSource.defensiveReuseTokenSource (.other s) t).Token fetch now).2.2)
    ∧ (∀ (n : Nat) (times : List time.Time),
        (run fetch (.defensiveReuseTokenSource (.other s) t) n times).1.length = times.length)
    ∧ (∀ (n : Nat) (times : List time.Time),
        ∀ p ∈ (run fetch (.defensiveReuseTokenSource (.other s) t) n times).1,
          p.2 ≤ n + times.length)
    ∧ (∀ now : time.Time, valid t now = true →
        (oauth2.TokenSource.defensiveReuseTokenSource (.other s) t).Token fetch now
          = (⟨t, none⟩, .defensiveReuseTokenSource (.other s) t, 0))
    ∧ ((∀ (s2 : σ) (now : time.Time), (fetch s2 now).1.err ≠ none) →
        ∀ times : List time.Time,
          (run fetch (.defensiveReuseTokenSource (.other s) none) 0 times).1.map Prod.snd
              = List.range' 1 times.length
          ∧ ∀ p ∈ (run fetch (.defensiveReuseTokenSource (.other s) none) 0 times).1,
              p.1.tok = none ∧ p.1.err ≠ none) := by
  refine ⟨?_, events_count_fetch fetch s t, fun n times => run_length fetch times _ n,
    fun n times => run_single_layer_count_le fetch times s t n,
    fun now hv => Token_of_valid fetch _ t now hv, ?_⟩
  · intro now
    cases hv : valid t now <;> simp [oauth2.TokenSource.events, hv]
  · intro hfail times
    exact run_failing fetch hfail times s 0

/-- C7 (witness): two callers at `t0` of an empty cache over the failing
source. -/
theorem C7_calls_take_turns_under_the_mutex_witness :
    (run failFetch (.defensiveReuseTokenSource (.other ()) none) 0 [t0, t0]).1.map Prod.snd
      = List.range' 1 [t0, t0].length :=
  ((C7_calls_take_turns_under_the_mutex failFetch () none).2.2.2.2.2
    (by intro s2 now; simp [failFetch]) [t0, t0]).1

end sharedsecret
